import Mathlib

/-!
Verification of the Medicine-Cabinet binary format layer.

This file shallowly embeds the binary encode/decode core shared by the two
record kinds of the repository:

* `src/tablet.py` — the AURA Tablet (`.auratab`) format: header plus an
  ordered sequence of three-string entries;
* `src/medicine_cabinet/context_capsule.py` — the context Capsule
  (`.auractx`) format: header plus an ordered sequence of named, typed
  sections.

Byte buffers are modelled as `List Nat` (one element per byte, each < 256).
Python integers carried on the wire are `Nat` with explicit range guards
mirroring `struct.pack` / `struct.unpack_from`.  Fallible Python code
(functions that raise `ValueError`) is modelled with `Except DecodeError`
on the decode side and with `Option` on the encode side; the error kinds
follow the taxonomy of the specification (§7), matched to the concrete
`raise` sites of the source.

Modelling notes, fixed once here:

* Timestamps.  Python `datetime` values are modelled as their epoch-
  millisecond value (`Nat`).  The source truncates to milliseconds on
  encode (`int(timestamp() * 1000)`) and reconstructs from milliseconds
  on decode (`fromtimestamp(ms / 1000)`); at millisecond granularity both
  are the identity, which is the granularity at which the specification
  states all timestamp properties.  The ISO rendering placed inside the
  metadata JSON blob (`isoformat` / `fromisoformat`) is modelled by an
  injective decimal rendering of the millisecond value with a matching
  parse; only its round-trip property and its parse failures are ever
  relied on by the source.
* JSON.  The standard-library `json.dumps(..., ensure_ascii=False,
  sort_keys=True)` and `json.loads` pair is modelled by an executable
  serialiser and parser over a JSON value type without floating-point
  numbers (integer numerals only); float payloads are outside the model.
  Python `dict` values compare order-insensitively, so decoded objects
  are related to encoded ones through an explicit canonicalisation
  (`Json.canon`) that sorts object keys exactly the way `sort_keys=True`
  does.
* Impurity.  `datetime.now()` inside `from_dict` is made explicit as a
  `now : Nat` argument threaded through the decoders.
-/

/-- Decode failure kinds, following the specification's error taxonomy (§7),
mapped from the `ValueError` raise sites of `tablet.py` and
`context_capsule.py`. -/
inductive DecodeError where
  | BadMagic
  | UnsupportedVersion
  | TruncatedInput
  | InvalidUtf8
  | MalformedMetadata
  | UnknownSectionKind
deriving DecidableEq, Repr

instance {ε α : Type} [DecidableEq ε] [DecidableEq α] : DecidableEq (Except ε α)
  | .error a, .error b =>
    if h : a = b then isTrue (by rw [h]) else isFalse (by intro hh; injection hh; contradiction)
  | .error _, .ok _ => isFalse (by intro hh; exact Except.noConfusion hh)
  | .ok _, .error _ => isFalse (by intro hh; exact Except.noConfusion hh)
  | .ok a, .ok b =>
    if h : a = b then isTrue (by rw [h]) else isFalse (by intro hh; injection hh; contradiction)

/-! ## Big-endian fixed-width integers (`struct.pack` / `struct.unpack_from`) -/

/-- Big-endian encoding of `n` into `w` bytes, the model of
`struct.pack` with formats `>H` (w = 2), `>I` (w = 4), `>Q` (w = 8). -/
def packBE : Nat → Nat → List Nat
  | 0, _ => []
  | w + 1, n => packBE w (n / 256) ++ [n % 256]

/-- Big-endian value of a byte list. -/
def beVal (bs : List Nat) : Nat := bs.foldl (fun acc b => acc * 256 + b) 0

/-- Model of `struct.unpack_from` at offset `cursor` with width `w`:
fails exactly when fewer than `w` bytes remain. -/
def readBE (b : List Nat) (cursor w : Nat) : Option Nat :=
  if cursor + w ≤ b.length then some (beVal ((b.drop cursor).take w)) else none

theorem packBE_length (w n : Nat) : (packBE w n).length = w := by
  induction w generalizing n with
  | zero => rfl
  | succ w ih => simp [packBE, ih]

theorem packBE_lt (w n : Nat) : ∀ x ∈ packBE w n, x < 256 := by
  induction w generalizing n with
  | zero => simp [packBE]
  | succ w ih =>
    intro x hx
    simp only [packBE, List.mem_append, List.mem_singleton] at hx
    rcases hx with hx | hx
    · exact ih _ x hx
    · omega

theorem beVal_foldl_packBE (w n acc : Nat) :
    (packBE w n).foldl (fun a b => a * 256 + b) acc = acc * 256 ^ w + n % 256 ^ w := by
  induction w generalizing n acc with
  | zero => simp [packBE, Nat.mod_one]
  | succ w ih =>
    rw [packBE, List.foldl_append, ih]
    simp only [List.foldl_cons, List.foldl_nil]
    have h256 : (256 : Nat) ^ (w + 1) = 256 ^ w * 256 := by ring
    have hmod : n % 256 ^ (w + 1) = n % 256 + 256 * (n / 256 % 256 ^ w) := by
      rw [h256, Nat.mul_comm, Nat.mod_mul]
    rw [hmod, h256]
    ring

theorem beVal_packBE {w n : Nat} (h : n < 256 ^ w) : beVal (packBE w n) = n := by
  unfold beVal
  rw [beVal_foldl_packBE, Nat.zero_mul, Nat.zero_add, Nat.mod_eq_of_lt h]

theorem mid_slice (pre mid suf : List Nat) :
    ((pre ++ mid ++ suf).drop pre.length).take mid.length = mid := by
  have h1 : (pre ++ (mid ++ suf)).drop pre.length = mid ++ suf := by
    have := @List.drop_append Nat pre (mid ++ suf) 0
    simpa using this
  rw [List.append_assoc, h1]
  have h2 := @List.take_append Nat mid suf 0
  simpa using h2

theorem readBE_exact {w n : Nat} (pre suf : List Nat) (h : n < 256 ^ w) :
    readBE (pre ++ packBE w n ++ suf) pre.length w = some n := by
  unfold readBE
  have hlen : pre.length + w ≤ (pre ++ packBE w n ++ suf).length := by
    simp only [List.length_append, packBE_length]
    omega
  rw [if_pos hlen]
  have := mid_slice pre (packBE w n) suf
  rw [packBE_length] at this
  rw [this, beVal_packBE h]

theorem readBE_take {b : List Nat} {c w k : Nat} (h : c + w ≤ k) :
    readBE (b.take k) c w = readBE b c w := by
  unfold readBE
  rw [List.length_take]
  by_cases hb : c + w ≤ b.length
  · rw [if_pos (le_inf (by omega) hb), if_pos hb]
    congr 1
    rw [List.drop_take, List.take_take, inf_eq_left.mpr (by omega : w ≤ k - c)]
  · have hmin : k ⊓ b.length ≤ b.length := inf_le_right
    rw [if_neg (by omega), if_neg hb]

theorem readBE_take_none {b : List Nat} {c w k : Nat} (h : k < c + w) :
    readBE (b.take k) c w = none := by
  unfold readBE
  have hmin : k ⊓ b.length ≤ k := inf_le_left
  rw [List.length_take, if_neg (by omega)]

theorem readBE_append {b s : List Nat} {c w : Nat} (h : c + w ≤ b.length) :
    readBE (b ++ s) c w = readBE b c w := by
  have h1 : readBE ((b ++ s).take b.length) c w = readBE (b ++ s) c w := readBE_take h
  have h2 : (b ++ s).take b.length = b := by
    have := @List.take_append Nat b s 0
    simpa using this
  rw [h2] at h1
  exact h1.symm

/-! ## UTF-8 codec (Python `str.encode("utf-8")` / `bytes.decode("utf-8")`, strict) -/

/-- UTF-8 encoding of one unicode scalar value (Python `str.encode("utf-8")`
acting on a single character; Lean `Char` excludes the lone surrogates that
Python's encoder rejects). -/
def utf8EncodeChar (c : Char) : List Nat :=
  if c.toNat < 0x80 then [c.toNat]
  else if c.toNat < 0x800 then [0xC0 + c.toNat / 64, 0x80 + c.toNat % 64]
  else if c.toNat < 0x10000 then
    [0xE0 + c.toNat / 4096, 0x80 + c.toNat / 64 % 64, 0x80 + c.toNat % 64]
  else
    [0xF0 + c.toNat / 262144, 0x80 + c.toNat / 4096 % 64, 0x80 + c.toNat / 64 % 64,
      0x80 + c.toNat % 64]

/-- UTF-8 encoding of a character sequence. -/
def utf8Encode (cs : List Char) : List Nat := cs.flatMap utf8EncodeChar

/-- A UTF-8 continuation byte. -/
def isCont (b : Nat) : Prop := 0x80 ≤ b ∧ b < 0xC0

instance (b : Nat) : Decidable (isCont b) := by unfold isCont; infer_instance

/-! Strict UTF-8 decoding (Python `bytes.decode("utf-8")`): rejects stray
continuation bytes, overlong forms, surrogate code points and values above
U+10FFFF, exactly as CPython's strict decoder does.  Split into one helper
per sequence length so that each function is a single flat match. -/

mutual

def utf8Decode : List Nat → Option (List Char)
  | [] => some []
  | b0 :: rest =>
    if b0 < 0x80 then (utf8Decode rest).map (fun cs => Char.ofNat b0 :: cs)
    else if b0 < 0xC2 then none
    else if b0 < 0xE0 then utf8Dec2 b0 rest
    else if b0 < 0xF0 then utf8Dec3 b0 rest
    else if b0 < 0xF5 then utf8Dec4 b0 rest
    else none
termination_by l => l.length

def utf8Dec2 (b0 : Nat) : List Nat → Option (List Char)
  | b1 :: rest =>
    if isCont b1 then
      (utf8Decode rest).map (fun cs => Char.ofNat ((b0 - 0xC0) * 64 + (b1 - 0x80)) :: cs)
    else none
  | [] => none
termination_by l => l.length

def utf8Dec3 (b0 : Nat) : List Nat → Option (List Char)
  | b1 :: b2 :: rest =>
    if isCont b1 ∧ isCont b2 ∧ (b0 = 0xE0 → 0xA0 ≤ b1) ∧ (b0 = 0xED → b1 < 0xA0) then
      (utf8Decode rest).map (fun cs =>
        Char.ofNat ((b0 - 0xE0) * 4096 + (b1 - 0x80) * 64 + (b2 - 0x80)) :: cs)
    else none
  | _ => none
termination_by l => l.length

def utf8Dec4 (b0 : Nat) : List Nat → Option (List Char)
  | b1 :: b2 :: b3 :: rest =>
    if isCont b1 ∧ isCont b2 ∧ isCont b3 ∧ (b0 = 0xF0 → 0x90 ≤ b1) ∧ (b0 = 0xF4 → b1 < 0x90) then
      (utf8Decode rest).map (fun cs =>
        Char.ofNat ((b0 - 0xF0) * 262144 + (b1 - 0x80) * 4096 + (b2 - 0x80) * 64 +
          (b3 - 0x80)) :: cs)
    else none
  | _ => none
termination_by l => l.length

end

theorem utf8Decode_nil : utf8Decode [] = some [] := by
  rw [utf8Decode]

theorem utf8Decode_cons (b0 : Nat) (rest : List Nat) :
    utf8Decode (b0 :: rest) =
      if b0 < 0x80 then (utf8Decode rest).map (fun cs => Char.ofNat b0 :: cs)
      else if b0 < 0xC2 then none
      else if b0 < 0xE0 then utf8Dec2 b0 rest
      else if b0 < 0xF0 then utf8Dec3 b0 rest
      else if b0 < 0xF5 then utf8Dec4 b0 rest
      else none := by
  rw [utf8Decode]

theorem utf8Dec2_cons (b0 b1 : Nat) (rest : List Nat) :
    utf8Dec2 b0 (b1 :: rest) =
      if isCont b1 then
        (utf8Decode rest).map (fun cs => Char.ofNat ((b0 - 0xC0) * 64 + (b1 - 0x80)) :: cs)
      else none := by
  rw [utf8Dec2]

theorem utf8Dec3_cons (b0 b1 b2 : Nat) (rest : List Nat) :
    utf8Dec3 b0 (b1 :: b2 :: rest) =
      if isCont b1 ∧ isCont b2 ∧ (b0 = 0xE0 → 0xA0 ≤ b1) ∧ (b0 = 0xED → b1 < 0xA0) then
        (utf8Decode rest).map (fun cs =>
          Char.ofNat ((b0 - 0xE0) * 4096 + (b1 - 0x80) * 64 + (b2 - 0x80)) :: cs)
      else none := by
  rw [utf8Dec3]

theorem utf8Dec4_cons (b0 b1 b2 b3 : Nat) (rest : List Nat) :
    utf8Dec4 b0 (b1 :: b2 :: b3 :: rest) =
      if isCont b1 ∧ isCont b2 ∧ isCont b3 ∧ (b0 = 0xF0 → 0x90 ≤ b1) ∧ (b0 = 0xF4 → b1 < 0x90) then
        (utf8Decode rest).map (fun cs =>
          Char.ofNat ((b0 - 0xF0) * 262144 + (b1 - 0x80) * 4096 + (b2 - 0x80) * 64 +
            (b3 - 0x80)) :: cs)
      else none := by
  rw [utf8Dec4]

theorem char_valid_nat (c : Char) : c.toNat < 0xD800 ∨ (0xDFFF < c.toNat ∧ c.toNat < 0x110000) := by
  have h := c.valid
  unfold UInt32.isValidChar at h
  unfold Nat.isValidChar at h
  exact h

theorem utf8EncodeChar_lt (c : Char) : ∀ x ∈ utf8EncodeChar c, x < 256 := by
  have hv := char_valid_nat c
  intro x hx
  unfold utf8EncodeChar at hx
  by_cases h1 : c.toNat < 0x80
  · rw [if_pos h1] at hx
    simp only [List.mem_singleton] at hx
    omega
  · rw [if_neg h1] at hx
    by_cases h2 : c.toNat < 0x800
    · rw [if_pos h2] at hx
      simp only [List.mem_cons, List.not_mem_nil, or_false] at hx
      rcases hx with hx | hx <;> omega
    · rw [if_neg h2] at hx
      by_cases h3 : c.toNat < 0x10000
      · rw [if_pos h3] at hx
        simp only [List.mem_cons, List.not_mem_nil, or_false] at hx
        rcases hx with hx | hx | hx <;> omega
      · rw [if_neg h3] at hx
        simp only [List.mem_cons, List.not_mem_nil, or_false] at hx
        rcases hx with hx | hx | hx | hx <;> omega

theorem utf8Decode_encodeChar (c : Char) (rest : List Nat) :
    utf8Decode (utf8EncodeChar c ++ rest) = (utf8Decode rest).map (fun cs => c :: cs) := by
  have hv := char_valid_nat c
  by_cases h1 : c.toNat < 0x80
  · have henc : utf8EncodeChar c = [c.toNat] := by unfold utf8EncodeChar; rw [if_pos h1]
    rw [henc, List.cons_append, List.nil_append, utf8Decode_cons, if_pos h1, Char.ofNat_toNat]
  · by_cases h2 : c.toNat < 0x800
    · have henc : utf8EncodeChar c = [0xC0 + c.toNat / 64, 0x80 + c.toNat % 64] := by
        unfold utf8EncodeChar; rw [if_neg h1, if_pos h2]
      rw [henc, List.cons_append, List.cons_append, List.nil_append, utf8Decode_cons,
        if_neg (by omega), if_neg (by omega), if_pos (by omega), utf8Dec2_cons,
        if_pos (by unfold isCont; omega)]
      have hx : (0xC0 + c.toNat / 64 - 0xC0) * 64 + (0x80 + c.toNat % 64 - 0x80) = c.toNat := by
        omega
      rw [hx, Char.ofNat_toNat]
    · by_cases h3 : c.toNat < 0x10000
      · have henc : utf8EncodeChar c =
            [0xE0 + c.toNat / 4096, 0x80 + c.toNat / 64 % 64, 0x80 + c.toNat % 64] := by
          unfold utf8EncodeChar; rw [if_neg h1, if_neg h2, if_pos h3]
        rw [henc, List.cons_append, List.cons_append, List.cons_append, List.nil_append,
          utf8Decode_cons, if_neg (by omega), if_neg (by omega), if_neg (by omega),
          if_pos (by omega), utf8Dec3_cons, if_pos (by unfold isCont; omega)]
        have hx : (0xE0 + c.toNat / 4096 - 0xE0) * 4096 + (0x80 + c.toNat / 64 % 64 - 0x80) * 64 +
            (0x80 + c.toNat % 64 - 0x80) = c.toNat := by omega
        rw [hx, Char.ofNat_toNat]
      · have henc : utf8EncodeChar c =
            [0xF0 + c.toNat / 262144, 0x80 + c.toNat / 4096 % 64, 0x80 + c.toNat / 64 % 64,
              0x80 + c.toNat % 64] := by
          unfold utf8EncodeChar; rw [if_neg h1, if_neg h2, if_neg h3]
        rw [henc, List.cons_append, List.cons_append, List.cons_append, List.cons_append,
          List.nil_append, utf8Decode_cons, if_neg (by omega), if_neg (by omega),
          if_neg (by omega), if_neg (by omega), if_pos (by omega), utf8Dec4_cons,
          if_pos (by unfold isCont; omega)]
        have hx : (0xF0 + c.toNat / 262144 - 0xF0) * 262144 +
            (0x80 + c.toNat / 4096 % 64 - 0x80) * 4096 +
            (0x80 + c.toNat / 64 % 64 - 0x80) * 64 + (0x80 + c.toNat % 64 - 0x80) = c.toNat := by
          omega
        rw [hx, Char.ofNat_toNat]

theorem utf8Decode_encode (cs : List Char) : utf8Decode (utf8Encode cs) = some cs := by
  induction cs with
  | nil => simp [utf8Encode, utf8Decode_nil]
  | cons c cs ih =>
    have : utf8Encode (c :: cs) = utf8EncodeChar c ++ utf8Encode cs := by
      simp [utf8Encode]
    rw [this, utf8Decode_encodeChar, ih]
    rfl

theorem utf8Encode_lt (cs : List Char) : ∀ x ∈ utf8Encode cs, x < 256 := by
  intro x hx
  unfold utf8Encode at hx
  rw [List.mem_flatMap] at hx
  obtain ⟨c, _, hc⟩ := hx
  exact utf8EncodeChar_lt c x hc

/-! ## Decimal digits (Python `str(int)` and the reverse) -/

/-- Character for one decimal digit. -/
def digitChar (n : Nat) : Char := Char.ofNat (48 + n)

/-- Decimal rendering with explicit fuel (the fuel is an upper bound on the
value, so the recursion is structural and kernel-reducible). -/
def natDigitsAux : Nat → Nat → List Char
  | 0, n => [digitChar (n % 10)]
  | fuel + 1, n => if n < 10 then [digitChar n] else natDigitsAux fuel (n / 10) ++ [digitChar (n % 10)]

/-- Decimal rendering of a natural number, most significant digit first. -/
def natDigits (n : Nat) : List Char := natDigitsAux n n

/-- Decimal digit test on characters. -/
def isDigitB (c : Char) : Bool := decide (48 ≤ c.toNat) && decide (c.toNat ≤ 57)

/-- Value of a decimal digit string. -/
def digitsVal (cs : List Char) : Nat := cs.foldl (fun a c => a * 10 + (c.toNat - 48)) 0

/-! ## JSON values

Model of the Python `json` standard library as used by the source:
`json.dumps(..., ensure_ascii=False, sort_keys=True)` and `json.loads`.
Numbers are integers only (the metadata producers of the repository never
emit floats; float payloads are outside the model).  The nested list types
are expressed as a mutual inductive family so that all recursion over JSON
stays structural and kernel-reducible. -/

mutual

inductive Json where
  | null
  | bool (b : Bool)
  | num (n : Int)
  | str (s : String)
  | arr (xs : JsonList)
  | obj (kvs : JsonKvs)
deriving DecidableEq

inductive JsonList where
  | nil
  | cons (hd : Json) (tl : JsonList)
deriving DecidableEq

inductive JsonKvs where
  | nil
  | kcons (k : String) (v : Json) (tl : JsonKvs)
deriving DecidableEq

end

/-- Item list of a JSON object, as key/value pairs. -/
def JsonKvs.toList : JsonKvs → List (String × Json)
  | .nil => []
  | .kcons k v tl => (k, v) :: tl.toList

/-- Rebuild an object item list from key/value pairs. -/
def JsonKvs.ofList : List (String × Json) → JsonKvs
  | [] => .nil
  | (k, v) :: tl => .kcons k v (JsonKvs.ofList tl)

/-- First-match lookup, the model of Python `dict.get` (the decoded dicts
of interest have unique keys, where first and last match agree). -/
def JsonKvs.find : JsonKvs → String → Option Json
  | .nil, _ => none
  | .kcons k v tl, key => if k = key then some v else tl.find key

/-- Code-point comparison of character lists, the model of Python string
comparison (`str < str` compares code points lexicographically).  The
built-in `String` order is not used because its implementation is not
kernel-reducible. -/
def charListLe : List Char → List Char → Bool
  | [], _ => true
  | _ :: _, [] => false
  | a :: as, b :: bs =>
    if a.toNat < b.toNat then true
    else if b.toNat < a.toNat then false
    else charListLe as bs

/-- Key order used by `sorted` on dict items (`sort_keys=True`). -/
def keyLe (a b : String) : Bool := charListLe a.data b.data

/-- Sort an object item list by key, the model of
`sorted(d.items())` inside `json.dumps(..., sort_keys=True)` (insertion
sort is stable, like Python's sort; dict keys are unique so only the key
part ever decides a comparison). -/
def sortKvs (l : List (String × Json)) : List (String × Json) :=
  List.insertionSort (fun a b => keyLe a.1 b.1 = true) l

mutual

/-- Recursively sort all object key lists.  `json.dumps(..., sort_keys=True)`
serialises every object at every depth in sorted key order; `canon` is that
reordering applied to the value itself, so that serialisation factors as
`dumpsRaw ∘ canon`.  Python dict equality is order-insensitive, so `canon`
maps every Python-equal value to one representative. -/
def Json.canon : Json → Json
  | .null => .null
  | .bool b => .bool b
  | .num n => .num n
  | .str s => .str s
  | .arr xs => .arr xs.canonL
  | .obj kvs => .obj (JsonKvs.ofList (sortKvs kvs.canonK.toList))

def JsonList.canonL : JsonList → JsonList
  | .nil => .nil
  | .cons x xs => .cons x.canon xs.canonL

def JsonKvs.canonK : JsonKvs → JsonKvs
  | .nil => .nil
  | .kcons k v tl => .kcons k v.canon tl.canonK

end

/-! ## JSON serialisation (`json.dumps(..., ensure_ascii=False, sort_keys=True)`) -/

/-- Lower-case hexadecimal digit. -/
def hexDigitChar (n : Nat) : Char := if n < 10 then Char.ofNat (48 + n) else Char.ofNat (87 + n)

/-- JSON string escaping as Python's serialiser performs it with
`ensure_ascii=False`: quote and backslash get two-character escapes, the
five named control characters get their short escapes, all other control
characters below U+0020 get a `\u00xx` escape, and everything else is
emitted verbatim. -/
def escapeChar (c : Char) : List Char :=
  if c.toNat = 34 then ['\\', '"']
  else if c.toNat = 92 then ['\\', '\\']
  else if c.toNat = 10 then ['\\', 'n']
  else if c.toNat = 13 then ['\\', 'r']
  else if c.toNat = 9 then ['\\', 't']
  else if c.toNat = 8 then ['\\', 'b']
  else if c.toNat = 12 then ['\\', 'f']
  else if c.toNat < 32 then
    ['\\', 'u', '0', '0', hexDigitChar (c.toNat / 16), hexDigitChar (c.toNat % 16)]
  else [c]

/-- Escape every character of a string body. -/
def escChars : List Char → List Char
  | [] => []
  | c :: cs => escapeChar c ++ escChars cs

/-- Quoted JSON string literal. -/
def quoteStr (s : String) : List Char := '"' :: escChars s.data ++ ['"']

/-- Decimal rendering of a Python integer (`repr(int)`). -/
def intDigits (n : Int) : List Char :=
  if n < 0 then '-' :: natDigits (-n).toNat else natDigits n.toNat

mutual

/-- Serialise a JSON value in list order, with Python's default separators
(item separator comma-space, key separator colon-space).  The caller is
expected to have canonicalised the value first: the composite
`dumpsRaw (canon v)` is the model of
`json.dumps(v, ensure_ascii=False, sort_keys=True)`. -/
def Json.dumpsRaw : Json → List Char
  | .bool false => ['f', 'a', 'l', 's', 'e']
  | .bool true => ['t', 'r', 'u', 'e']
  | .null => ['n', 'u', 'l', 'l']
  | .num n => intDigits n
  | .str s => quoteStr s
  | .arr .nil => ['[', ']']
  | .arr (.cons x xs) => '[' :: (x.dumpsRaw ++ xs.dumpsRestL) ++ [']']
  | .obj .nil => ['\x7b', '\x7d']
  | .obj (.kcons k v tl) =>
    '\x7b' :: (quoteStr k ++ ':' :: ' ' :: v.dumpsRaw ++ tl.dumpsRestK) ++ ['\x7d']

def JsonList.dumpsRestL : JsonList → List Char
  | .nil => []
  | .cons x xs => ',' :: ' ' :: x.dumpsRaw ++ xs.dumpsRestL

def JsonKvs.dumpsRestK : JsonKvs → List Char
  | .nil => []
  | .kcons k v tl => ',' :: ' ' :: quoteStr k ++ ':' :: ' ' :: v.dumpsRaw ++ tl.dumpsRestK

end

/-- Model of `json.dumps(v, ensure_ascii=False, sort_keys=True)`. -/
def Json.dumps (v : Json) : List Char := v.canon.dumpsRaw

/-! ## JSON parsing (`json.loads`)

Recursive-descent over the character list, with an explicit fuel bounding
the nesting.  Divergences from CPython outside the domain this file ever
exercises: fractional and exponent numerals are rejected instead of parsed
as floats, and a `\uXXXX` escape is mapped through `Char.ofNat` without
surrogate-pair pairing (the serialiser only ever emits `\u00xx`). -/

/-- JSON whitespace. -/
def isWsChar (c : Char) : Bool := c = ' ' || c = '\t' || c = '\n' || c = '\r'

/-- Skip leading whitespace. -/
def skipWs (cs : List Char) : List Char := cs.dropWhile isWsChar

/-- Value of one hexadecimal digit character. -/
def hexVal (c : Char) : Option Nat :=
  if 48 ≤ c.toNat ∧ c.toNat ≤ 57 then some (c.toNat - 48)
  else if 97 ≤ c.toNat ∧ c.toNat ≤ 102 then some (c.toNat - 87)
  else if 65 ≤ c.toNat ∧ c.toNat ≤ 70 then some (c.toNat - 55)
  else none

/-- Consume an expected literal character sequence. -/
def expectChars (pat cs : List Char) : Option (List Char) :=
  if cs.take pat.length = pat then some (cs.drop pat.length) else none

/-- Decode a `\uXXXX` escape body. -/
def parseEscU : List Char → Option (Char × List Char)
  | h1 :: h2 :: h3 :: h4 :: cs =>
    (hexVal h1).bind fun v1 =>
      (hexVal h2).bind fun v2 =>
        (hexVal h3).bind fun v3 =>
          (hexVal h4).map fun v4 =>
            (Char.ofNat (v1 * 4096 + v2 * 256 + v3 * 16 + v4), cs)
  | _ => none

/-- Decode one escape sequence, positioned after the backslash. -/
def parseEsc : List Char → Option (Char × List Char)
  | [] => none
  | e :: cs =>
    if e.toNat = 34 then some ('"', cs)
    else if e.toNat = 92 then some ('\\', cs)
    else if e.toNat = 47 then some ('/', cs)
    else if e = 'b' then some (Char.ofNat 8, cs)
    else if e = 'f' then some (Char.ofNat 12, cs)
    else if e = 'n' then some ('\n', cs)
    else if e = 'r' then some ('\r', cs)
    else if e = 't' then some ('\t', cs)
    else if e = 'u' then parseEscU cs
    else none

/-- Decode a string body up to and past the closing quote, rejecting raw
control characters as CPython's strict mode does. -/
def parseStrBody : Nat → List Char → Option (List Char × List Char)
  | _, [] => none
  | 0, _ :: _ => none
  | fuel + 1, c :: cs =>
    if c.toNat = 34 then some ([], cs)
    else if c.toNat = 92 then
      (parseEsc cs).bind fun r =>
        (parseStrBody fuel r.2).map fun q => (r.1 :: q.1, q.2)
    else if c.toNat < 32 then none
    else (parseStrBody fuel cs).map fun q => (c :: q.1, q.2)

/-- Decode a run of decimal digits. -/
def parseNatA (cs : List Char) : Option (Nat × List Char) :=
  if (cs.takeWhile isDigitB).isEmpty then none
  else some (digitsVal (cs.takeWhile isDigitB), cs.dropWhile isDigitB)

/-- Guard after an integer numeral: a fraction or exponent marker means the
numeral is a float, which the model rejects. -/
def intGuard (n : Int) : List Char → Option (Json × List Char)
  | [] => some (.num n, [])
  | c :: cs =>
    if c.toNat = 46 ∨ c = 'e' ∨ c = 'E' then none else some (.num n, c :: cs)

/-- Decode an integer numeral with optional leading minus sign. -/
def parseNum : List Char → Option (Json × List Char)
  | [] => none
  | c :: cs =>
    if c = '-' then
      (parseNatA cs).bind fun r => intGuard (-(r.1 : Int)) r.2
    else
      (parseNatA (c :: cs)).bind fun r => intGuard (r.1 : Int) r.2

mutual

/-- Decode one JSON value after optional leading whitespace. -/
def parseVal : Nat → List Char → Option (Json × List Char)
  | 0, _ => none
  | fuel + 1, cs => parseValCore fuel (skipWs cs)
termination_by fuel _ => (fuel, 0)

def parseValCore (fuel : Nat) : List Char → Option (Json × List Char)
  | [] => none
  | c :: cs =>
    if c = 'n' then (expectChars ['u', 'l', 'l'] cs).map fun rest => (Json.null, rest)
    else if c = 't' then (expectChars ['r', 'u', 'e'] cs).map fun rest => (Json.bool true, rest)
    else if c = 'f' then
      (expectChars ['a', 'l', 's', 'e'] cs).map fun rest => (Json.bool false, rest)
    else if c.toNat = 34 then
      (parseStrBody cs.length cs).map fun r => (Json.str (String.mk r.1), r.2)
    else if c.toNat = 91 then parseArrBody fuel cs (skipWs cs)
    else if c.toNat = 123 then parseObjBody fuel cs (skipWs cs)
    else if c = '-' ∨ isDigitB c then parseNum (c :: cs)
    else none
termination_by _ => (fuel, 5)

def parseArrBody (fuel : Nat) (orig : List Char) : List Char → Option (Json × List Char)
  | d :: cs3 =>
    if d.toNat = 93 then some (Json.arr .nil, cs3)
    else (parseElems fuel orig).map fun r => (Json.arr r.1, r.2)
  | [] => none
termination_by _ => (fuel, 4)

def parseObjBody (fuel : Nat) (orig : List Char) : List Char → Option (Json × List Char)
  | d :: cs3 =>
    if d.toNat = 125 then some (Json.obj .nil, cs3)
    else (parseMembers fuel orig).map fun r => (Json.obj r.1, r.2)
  | [] => none
termination_by _ => (fuel, 4)

def parseElems : Nat → List Char → Option (JsonList × List Char)
  | 0, _ => none
  | fuel + 1, cs =>
    (parseVal fuel cs).bind fun r => parseElemsSep fuel r.1 (skipWs r.2)
termination_by fuel _ => (fuel, 1)

def parseElemsSep (fuel : Nat) (v : Json) : List Char → Option (JsonList × List Char)
  | d :: rest =>
    if d = ',' then (parseElems fuel rest).map fun r => (JsonList.cons v r.1, r.2)
    else if d.toNat = 93 then some (JsonList.cons v .nil, rest)
    else none
  | [] => none
termination_by _ => (fuel, 2)

def parseMembers : Nat → List Char → Option (JsonKvs × List Char)
  | 0, _ => none
  | fuel + 1, cs => parseMemberKey fuel (skipWs cs)
termination_by fuel _ => (fuel, 1)

def parseMemberKey (fuel : Nat) : List Char → Option (JsonKvs × List Char)
  | c :: cs =>
    if c.toNat = 34 then
      (parseStrBody cs.length cs).bind fun r =>
        parseMemberColon fuel (String.mk r.1) (skipWs r.2)
    else none
  | [] => none
termination_by _ => (fuel, 4)

def parseMemberColon (fuel : Nat) (k : String) : List Char → Option (JsonKvs × List Char)
  | d :: rest =>
    if d = ':' then (parseVal fuel rest).bind fun r => parseMemberSep fuel k r.1 (skipWs r.2)
    else none
  | [] => none
termination_by _ => (fuel, 3)

def parseMemberSep (fuel : Nat) (k : String) (v : Json) : List Char → Option (JsonKvs × List Char)
  | e :: rest =>
    if e = ',' then (parseMembers fuel rest).map fun r => (JsonKvs.kcons k v r.1, r.2)
    else if e.toNat = 125 then some (JsonKvs.kcons k v .nil, rest)
    else none
  | [] => none
termination_by _ => (fuel, 2)

end

/-- Model of `json.loads`: decode one value and require only whitespace
after it. -/
def jsonLoads (cs : List Char) : Option Json :=
  (parseVal (cs.length + 1) cs).bind fun r =>
    if (skipWs r.2).isEmpty then some r.1 else none

/-! ## Round-trip of the JSON codec pair -/

theorem charEq_of_toNat_eq {a b : Char} (h : a.toNat = b.toNat) : a = b := by
  apply Char.ext
  exact UInt32.toNat.inj h

theorem digitChar_toNat {n : Nat} (h : n < 10) : (digitChar n).toNat = 48 + n := by
  interval_cases n <;> decide

theorem digitChar_isDigit {n : Nat} (h : n < 10) : isDigitB (digitChar n) = true := by
  unfold isDigitB
  rw [digitChar_toNat h]
  simp only [Bool.and_eq_true, decide_eq_true_eq]
  omega

theorem natDigitsAux_digits (fuel n : Nat) : ∀ c ∈ natDigitsAux fuel n, isDigitB c = true := by
  induction fuel generalizing n with
  | zero =>
    intro c hc
    simp only [natDigitsAux, List.mem_singleton] at hc
    subst hc
    exact digitChar_isDigit (by omega)
  | succ fuel ih =>
    intro c hc
    unfold natDigitsAux at hc
    by_cases h : n < 10
    · rw [if_pos h] at hc
      simp only [List.mem_singleton] at hc
      subst hc
      exact digitChar_isDigit h
    · rw [if_neg h] at hc
      simp only [List.mem_append, List.mem_singleton] at hc
      rcases hc with hc | hc
      · exact ih _ c hc
      · subst hc
        exact digitChar_isDigit (by omega)

theorem natDigitsAux_ne_nil (fuel n : Nat) : natDigitsAux fuel n ≠ [] := by
  cases fuel with
  | zero => simp [natDigitsAux]
  | succ fuel =>
    unfold natDigitsAux
    by_cases h : n < 10
    · rw [if_pos h]; simp
    · rw [if_neg h]; simp

theorem digitsVal_natDigitsAux (fuel : Nat) : ∀ n, n ≤ fuel → digitsVal (natDigitsAux fuel n) = n := by
  induction fuel with
  | zero =>
    intro n hn
    have : n = 0 := by omega
    subst this
    simp [natDigitsAux, digitsVal, digitChar_toNat]
  | succ fuel ih =>
    intro n hn
    unfold natDigitsAux
    by_cases h : n < 10
    · rw [if_pos h]
      simp [digitsVal, digitChar_toNat h]
    · rw [if_neg h]
      unfold digitsVal
      rw [List.foldl_append]
      have hq : n / 10 ≤ fuel := by omega
      have := ih (n / 10) hq
      unfold digitsVal at this
      rw [this]
      simp only [List.foldl_cons, List.foldl_nil]
      rw [digitChar_toNat (by omega)]
      omega

theorem digitsVal_natDigits (n : Nat) : digitsVal (natDigits n) = n :=
  digitsVal_natDigitsAux n n (Nat.le_refl n)

theorem natDigits_digits (n : Nat) : ∀ c ∈ natDigits n, isDigitB c = true :=
  natDigitsAux_digits n n

theorem takeWhile_append_all {α : Type} (p : α → Bool) {l1 : List α} (l2 : List α)
    (h : ∀ x ∈ l1, p x = true) : (l1 ++ l2).takeWhile p = l1 ++ l2.takeWhile p := by
  induction l1 with
  | nil => simp
  | cons a l ih =>
    rw [List.cons_append, List.takeWhile_cons, if_pos (h a (by simp))]
    rw [ih (fun x hx => h x (by simp [hx]))]
    rfl

theorem dropWhile_append_all {α : Type} (p : α → Bool) {l1 : List α} (l2 : List α)
    (h : ∀ x ∈ l1, p x = true) : (l1 ++ l2).dropWhile p = l2.dropWhile p := by
  induction l1 with
  | nil => simp
  | cons a l ih =>
    rw [List.cons_append, List.dropWhile_cons, if_pos (h a (by simp))]
    exact ih (fun x hx => h x (by simp [hx]))

theorem takeWhile_eq_nil_of_head {p : Char → Bool} {l : List Char}
    (h : ∀ c, l.head? = some c → p c = false) : l.takeWhile p = [] := by
  cases l with
  | nil => rfl
  | cons a l => rw [List.takeWhile_cons, if_neg (by simp [h a rfl])]

theorem dropWhile_eq_self_of_head {p : Char → Bool} {l : List Char}
    (h : ∀ c, l.head? = some c → p c = false) : l.dropWhile p = l := by
  cases l with
  | nil => rfl
  | cons a l => rw [List.dropWhile_cons, if_neg (by simp [h a rfl])]

theorem parseNatA_spec (n : Nat) (rest : List Char)
    (hrest : ∀ c, rest.head? = some c → isDigitB c = false) :
    parseNatA (natDigits n ++ rest) = some (n, rest) := by
  unfold parseNatA
  rw [takeWhile_append_all _ _ (natDigits_digits n), takeWhile_eq_nil_of_head hrest,
    List.append_nil, dropWhile_append_all _ _ (natDigits_digits n),
    dropWhile_eq_self_of_head hrest]
  rw [if_neg (by simp only [List.isEmpty_iff]; exact natDigitsAux_ne_nil n n)]
  rw [digitsVal_natDigits]

/-- Separator condition after a numeral: the following character (if any)
must not extend the numeral into a float or a longer integer. -/
def sepOk (rest : List Char) : Prop :=
  ∀ c, rest.head? = some c → isDigitB c = false ∧ c.toNat ≠ 46 ∧ c ≠ 'e' ∧ c ≠ 'E'

theorem intGuard_cons (n : Int) (c : Char) (cs : List Char) :
    intGuard n (c :: cs) =
      if c.toNat = 46 ∨ c = 'e' ∨ c = 'E' then none else some (Json.num n, c :: cs) := rfl

theorem parseNum_cons (c : Char) (cs : List Char) :
    parseNum (c :: cs) =
      if c = '-' then (parseNatA cs).bind fun r => intGuard (-(r.1 : Int)) r.2
      else (parseNatA (c :: cs)).bind fun r => intGuard (r.1 : Int) r.2 := rfl

theorem intGuard_spec (n : Int) (rest : List Char) (hrest : sepOk rest) :
    intGuard n rest = some (Json.num n, rest) := by
  cases rest with
  | nil => rfl
  | cons c cs =>
    rw [intGuard_cons]
    have h := hrest c rfl
    rw [if_neg (by simp [h.2.1, h.2.2.1, h.2.2.2])]

theorem parseNum_spec (n : Int) (rest : List Char) (hrest : sepOk rest) :
    parseNum (intDigits n ++ rest) = some (Json.num n, rest) := by
  have hdig : ∀ c, rest.head? = some c → isDigitB c = false := fun c hc => (hrest c hc).1
  unfold intDigits
  by_cases hn : n < 0
  · rw [if_pos hn, List.cons_append, parseNum_cons]
    rw [if_pos rfl, parseNatA_spec _ _ hdig, Option.some_bind,
      intGuard_spec _ _ hrest]
    have harg : -(((-n).toNat : Int)) = n := by
      have h0 : (0 : Int) ≤ -n := by omega
      rw [Int.toNat_of_nonneg h0]
      ring
    rw [harg]
  · rw [if_neg hn]
    rcases hd : natDigits n.toNat with _ | ⟨d, ds⟩
    · exact absurd hd (natDigitsAux_ne_nil _ _)
    · have hdd : isDigitB d = true := by
        have := natDigits_digits n.toNat d
        rw [hd] at this
        exact this (by simp)
      have hdne : ¬(d = '-') := by
        intro hcon
        subst hcon
        simp [isDigitB] at hdd
      rw [List.cons_append, parseNum_cons]
      rw [if_neg hdne, ← List.cons_append, ← hd, parseNatA_spec _ _ hdig, Option.some_bind,
        intGuard_spec _ _ hrest]
      have harg : ((n.toNat : Int)) = n := Int.toNat_of_nonneg (by omega)
      rw [harg]

theorem hexDigitChar_hexVal {n : Nat} (h : n < 16) : hexVal (hexDigitChar n) = some n := by
  interval_cases n <;> rfl

theorem escChars_cons (c : Char) (cs : List Char) :
    escChars (c :: cs) = escapeChar c ++ escChars cs := rfl

theorem escapeChar_length_pos (c : Char) : 1 ≤ (escapeChar c).length := by
  unfold escapeChar
  split_ifs <;> simp

theorem escChars_length_ge (s : List Char) : s.length ≤ (escChars s).length := by
  induction s with
  | nil => simp [escChars]
  | cons c cs ih =>
    rw [escChars_cons, List.length_append, List.length_cons]
    have := escapeChar_length_pos c
    omega

theorem parseStrBody_succ (fuel : Nat) (c : Char) (cs : List Char) :
    parseStrBody (fuel + 1) (c :: cs) =
      if c.toNat = 34 then some ([], cs)
      else if c.toNat = 92 then
        (parseEsc cs).bind fun r => (parseStrBody fuel r.2).map fun q => (r.1 :: q.1, q.2)
      else if c.toNat < 32 then none
      else (parseStrBody fuel cs).map fun q => (c :: q.1, q.2) := rfl

theorem parseStrBody_esc_step {c e : Char} {g : Nat} (cs rest : List Char)
    (hesc : ∀ tail, parseEsc (e :: tail) = some (c, tail))
    (hih : parseStrBody g (escChars cs ++ '"' :: rest) = some (cs, rest)) :
    parseStrBody (g + 1) ('\\' :: e :: (escChars cs ++ '"' :: rest)) = some (c :: cs, rest) := by
  rw [parseStrBody_succ, if_neg (by decide), if_pos (by decide), hesc, Option.some_bind, hih]
  rfl

theorem parseStrBody_escChars (s : List Char) :
    ∀ (fuel : Nat) (rest : List Char), s.length < fuel →
      parseStrBody fuel (escChars s ++ '"' :: rest) = some (s, rest) := by
  induction s with
  | nil =>
    intro fuel rest h
    obtain ⟨g, rfl⟩ : ∃ g, fuel = g + 1 := ⟨fuel - 1, by omega⟩
    show parseStrBody (g + 1) ('"' :: rest) = some ([], rest)
    rw [parseStrBody_succ, if_pos (by decide)]
  | cons c cs ih =>
    intro fuel rest h
    obtain ⟨g, rfl⟩ : ∃ g, fuel = g + 1 := ⟨fuel - 1, by omega⟩
    have hih := ih g rest (by simp at h; omega)
    rw [escChars_cons, List.append_assoc]
    by_cases h34 : c.toNat = 34
    · obtain rfl : c = '"' := charEq_of_toNat_eq (by rw [h34]; rfl)
      exact parseStrBody_esc_step cs rest (fun tail => rfl) hih
    · by_cases h92 : c.toNat = 92
      · obtain rfl : c = '\\' := charEq_of_toNat_eq (by rw [h92]; rfl)
        exact parseStrBody_esc_step cs rest (fun tail => rfl) hih
      · by_cases h10 : c.toNat = 10
        · obtain rfl : c = '\n' := charEq_of_toNat_eq (by rw [h10]; rfl)
          exact parseStrBody_esc_step cs rest (fun tail => rfl) hih
        · by_cases h13 : c.toNat = 13
          · obtain rfl : c = '\r' := charEq_of_toNat_eq (by rw [h13]; rfl)
            exact parseStrBody_esc_step cs rest (fun tail => rfl) hih
          · by_cases h9 : c.toNat = 9
            · obtain rfl : c = '\t' := charEq_of_toNat_eq (by rw [h9]; rfl)
              exact parseStrBody_esc_step cs rest (fun tail => rfl) hih
            · by_cases h8 : c.toNat = 8
              · obtain rfl : c = Char.ofNat 8 := charEq_of_toNat_eq (by rw [h8]; rfl)
                exact parseStrBody_esc_step cs rest (fun tail => rfl) hih
              · by_cases h12 : c.toNat = 12
                · obtain rfl : c = Char.ofNat 12 := charEq_of_toNat_eq (by rw [h12]; rfl)
                  exact parseStrBody_esc_step cs rest (fun tail => rfl) hih
                · by_cases hctl : c.toNat < 32
                  · have henc : escapeChar c =
                        ['\\', 'u', '0', '0', hexDigitChar (c.toNat / 16),
                          hexDigitChar (c.toNat % 16)] := by
                      unfold escapeChar
                      rw [if_neg h34, if_neg h92, if_neg h10, if_neg h13, if_neg h9, if_neg h8,
                        if_neg h12, if_pos hctl]
                    rw [henc]
                    show parseStrBody (g + 1)
                      ('\\' :: 'u' :: '0' :: '0' :: hexDigitChar (c.toNat / 16) ::
                        hexDigitChar (c.toNat % 16) :: (escChars cs ++ '"' :: rest)) = _
                    rw [parseStrBody_succ, if_neg (by decide), if_pos (by decide)]
                    have hu : parseEsc ('u' :: '0' :: '0' :: hexDigitChar (c.toNat / 16) ::
                        hexDigitChar (c.toNat % 16) :: (escChars cs ++ '"' :: rest)) =
                        parseEscU ('0' :: '0' :: hexDigitChar (c.toNat / 16) ::
                          hexDigitChar (c.toNat % 16) :: (escChars cs ++ '"' :: rest)) := rfl
                    rw [hu]
                    have hEU : parseEscU ('0' :: '0' :: hexDigitChar (c.toNat / 16) ::
                        hexDigitChar (c.toNat % 16) :: (escChars cs ++ '"' :: rest)) =
                        (hexVal '0').bind fun v1 =>
                          (hexVal '0').bind fun v2 =>
                            (hexVal (hexDigitChar (c.toNat / 16))).bind fun v3 =>
                              (hexVal (hexDigitChar (c.toNat % 16))).map fun v4 =>
                                (Char.ofNat (v1 * 4096 + v2 * 256 + v3 * 16 + v4),
                                  escChars cs ++ '"' :: rest) := rfl
                    rw [hEU, show hexVal '0' = some 0 from rfl]
                    rw [hexDigitChar_hexVal (by omega : c.toNat / 16 < 16),
                      hexDigitChar_hexVal (by omega : c.toNat % 16 < 16)]
                    show ((parseStrBody g (escChars cs ++ '"' :: rest)).map fun q =>
                        (Char.ofNat (0 * 4096 + 0 * 256 + c.toNat / 16 * 16 + c.toNat % 16) ::
                          q.1, q.2)) = some (c :: cs, rest)
                    rw [hih]
                    show some (Char.ofNat (0 * 4096 + 0 * 256 + c.toNat / 16 * 16 +
                      c.toNat % 16) :: cs, rest) = some (c :: cs, rest)
                    rw [show 0 * 4096 + 0 * 256 + c.toNat / 16 * 16 + c.toNat % 16 = c.toNat from
                      by omega, Char.ofNat_toNat]
                  · have henc : escapeChar c = [c] := by
                      unfold escapeChar
                      rw [if_neg h34, if_neg h92, if_neg h10, if_neg h13, if_neg h9, if_neg h8,
                        if_neg h12, if_neg hctl]
                    rw [henc]
                    show parseStrBody (g + 1) (c :: (escChars cs ++ '"' :: rest)) = _
                    rw [parseStrBody_succ, if_neg h34, if_neg h92, if_neg hctl, hih]
                    rfl

theorem parseStrBody_quote (s : List Char) (rest : List Char) :
    parseStrBody (escChars s ++ '"' :: rest).length (escChars s ++ '"' :: rest) =
      some (s, rest) := by
  apply parseStrBody_escChars
  have := escChars_length_ge s
  simp only [List.length_append, List.length_cons]
  omega

mutual

/-- Fuel needed by the recursive-descent functions on the serialisation of
a value. -/
def Json.pfuel : Json → Nat
  | .null => 1
  | .bool _ => 1
  | .num _ => 1
  | .str _ => 1
  | .arr xs => 1 + xs.pfuelL
  | .obj kvs => 1 + kvs.pfuelK

def JsonList.pfuelL : JsonList → Nat
  | .nil => 0
  | .cons x xs => 1 + x.pfuel + xs.pfuelL

def JsonKvs.pfuelK : JsonKvs → Nat
  | .nil => 0
  | .kcons _ v tl => 1 + v.pfuel + tl.pfuelK

end

theorem pfuel_pos (v : Json) : 1 ≤ v.pfuel := by
  cases v <;> simp [Json.pfuel]

theorem skipWs_cons {c : Char} (cs : List Char) (h : isWsChar c = false) :
    skipWs (c :: cs) = c :: cs := by
  unfold skipWs
  rw [List.dropWhile_cons, if_neg (by simp [h])]

theorem skipWs_space (cs : List Char) : skipWs (' ' :: cs) = skipWs cs := by
  unfold skipWs
  rw [List.dropWhile_cons, if_pos (by decide)]

theorem expectChars_pre (pat rest : List Char) : expectChars pat (pat ++ rest) = some rest := by
  unfold expectChars
  have ht : (pat ++ rest).take pat.length = pat := by
    have := @List.take_append Char pat rest 0
    simpa using this
  have hd : (pat ++ rest).drop pat.length = rest := by
    have := @List.drop_append Char pat rest 0
    simpa using this
  rw [ht, hd, if_pos rfl]

theorem parseVal_zero (cs : List Char) : parseVal 0 cs = none := by rw [parseVal]

theorem parseVal_succ (fuel : Nat) (cs : List Char) :
    parseVal (fuel + 1) cs = parseValCore fuel (skipWs cs) := by rw [parseVal]

theorem parseValCore_cons (fuel : Nat) (c : Char) (cs : List Char) :
    parseValCore fuel (c :: cs) =
      if c = 'n' then (expectChars ['u', 'l', 'l'] cs).map fun rest => (Json.null, rest)
      else if c = 't' then (expectChars ['r', 'u', 'e'] cs).map fun rest => (Json.bool true, rest)
      else if c = 'f' then
        (expectChars ['a', 'l', 's', 'e'] cs).map fun rest => (Json.bool false, rest)
      else if c.toNat = 34 then
        (parseStrBody cs.length cs).map fun r => (Json.str (String.mk r.1), r.2)
      else if c.toNat = 91 then parseArrBody fuel cs (skipWs cs)
      else if c.toNat = 123 then parseObjBody fuel cs (skipWs cs)
      else if c = '-' ∨ isDigitB c then parseNum (c :: cs)
      else none := by rw [parseValCore]

theorem parseArrBody_cons (fuel : Nat) (orig : List Char) (d : Char) (cs3 : List Char) :
    parseArrBody fuel orig (d :: cs3) =
      if d.toNat = 93 then some (Json.arr .nil, cs3)
      else (parseElems fuel orig).map fun r => (Json.arr r.1, r.2) := by rw [parseArrBody]

theorem parseObjBody_cons (fuel : Nat) (orig : List Char) (d : Char) (cs3 : List Char) :
    parseObjBody fuel orig (d :: cs3) =
      if d.toNat = 125 then some (Json.obj .nil, cs3)
      else (parseMembers fuel orig).map fun r => (Json.obj r.1, r.2) := by rw [parseObjBody]

theorem parseElems_succ (fuel : Nat) (cs : List Char) :
    parseElems (fuel + 1) cs =
      (parseVal fuel cs).bind fun r => parseElemsSep fuel r.1 (skipWs r.2) := by rw [parseElems]

theorem parseElemsSep_cons (fuel : Nat) (v : Json) (d : Char) (rest : List Char) :
    parseElemsSep fuel v (d :: rest) =
      if d = ',' then (parseElems fuel rest).map fun r => (JsonList.cons v r.1, r.2)
      else if d.toNat = 93 then some (JsonList.cons v .nil, rest)
      else none := by rw [parseElemsSep]

theorem parseMembers_succ (fuel : Nat) (cs : List Char) :
    parseMembers (fuel + 1) cs = parseMemberKey fuel (skipWs cs) := by rw [parseMembers]

theorem parseMemberKey_cons (fuel : Nat) (c : Char) (cs : List Char) :
    parseMemberKey fuel (c :: cs) =
      if c.toNat = 34 then
        (parseStrBody cs.length cs).bind fun r =>
          parseMemberColon fuel (String.mk r.1) (skipWs r.2)
      else none := by rw [parseMemberKey]

theorem parseMemberColon_cons (fuel : Nat) (k : String) (d : Char) (rest : List Char) :
    parseMemberColon fuel k (d :: rest) =
      if d = ':' then (parseVal fuel rest).bind fun r => parseMemberSep fuel k r.1 (skipWs r.2)
      else none := by rw [parseMemberColon]

theorem parseMemberSep_cons (fuel : Nat) (k : String) (v : Json) (e : Char) (rest : List Char) :
    parseMemberSep fuel k v (e :: rest) =
      if e = ',' then (parseMembers fuel rest).map fun r => (JsonKvs.kcons k v r.1, r.2)
      else if e.toNat = 125 then some (JsonKvs.kcons k v .nil, rest)
      else none := by rw [parseMemberSep]

theorem parseVal_ws (fuel : Nat) (cs : List Char) : parseVal fuel (' ' :: cs) = parseVal fuel cs := by
  cases fuel with
  | zero => rw [parseVal_zero, parseVal_zero]
  | succ fuel => rw [parseVal_succ, parseVal_succ, skipWs_space]

theorem parseElems_ws (fuel : Nat) (cs : List Char) :
    parseElems fuel (' ' :: cs) = parseElems fuel cs := by
  cases fuel with
  | zero => rw [parseElems, parseElems]
  | succ fuel => rw [parseElems_succ, parseElems_succ, parseVal_ws]

theorem parseMembers_ws (fuel : Nat) (cs : List Char) :
    parseMembers fuel (' ' :: cs) = parseMembers fuel cs := by
  cases fuel with
  | zero => rw [parseMembers, parseMembers]
  | succ fuel => rw [parseMembers_succ, parseMembers_succ, skipWs_space]

theorem ne_of_toNat_ne {a b : Char} (h : a.toNat ≠ b.toNat) : a ≠ b := fun hcon => h (by rw [hcon])

theorem sepOk_cons {c : Char} (cs : List Char) (h1 : isDigitB c = false) (h2 : c.toNat ≠ 46)
    (h3 : c ≠ 'e') (h4 : c ≠ 'E') : sepOk (c :: cs) := by
  intro d hd
  simp only [List.head?_cons, Option.some.injEq] at hd
  subst hd
  exact ⟨h1, h2, h3, h4⟩

theorem sepOk_nil : sepOk [] := by
  intro d hd
  simp at hd

theorem sepOk_restL (xs : JsonList) (rest : List Char) :
    sepOk (xs.dumpsRestL ++ (']' :: rest)) := by
  cases xs with
  | nil => exact sepOk_cons rest (by decide) (by decide) (by decide) (by decide)
  | cons y ys =>
    rw [JsonList.dumpsRestL, List.cons_append]
    exact sepOk_cons _ (by decide) (by decide) (by decide) (by decide)

theorem sepOk_restK (kvs : JsonKvs) (rest : List Char) :
    sepOk (kvs.dumpsRestK ++ ('\x7d' :: rest)) := by
  cases kvs with
  | nil => exact sepOk_cons rest (by decide) (by decide) (by decide) (by decide)
  | kcons k v tl =>
    rw [JsonKvs.dumpsRestK, List.cons_append]
    exact sepOk_cons _ (by decide) (by decide) (by decide) (by decide)

theorem isWsChar_false_of_toNat {c : Char} (h : 32 < c.toNat) : isWsChar c = false := by
  unfold isWsChar
  have h1 : c ≠ ' ' := fun hcon => by subst hcon; exact absurd h (by decide)
  have h2 : c ≠ '\t' := fun hcon => by subst hcon; exact absurd h (by decide)
  have h3 : c ≠ '\n' := fun hcon => by subst hcon; exact absurd h (by decide)
  have h4 : c ≠ '\r' := fun hcon => by subst hcon; exact absurd h (by decide)
  simp [h1, h2, h3, h4]

theorem intDigits_head (n : Int) :
    ∃ d ds, intDigits n = d :: ds ∧ 45 ≤ d.toNat ∧ d.toNat ≤ 57 ∧ d.toNat ≠ 46 ∧ d.toNat ≠ 47 := by
  unfold intDigits
  by_cases hn : n < 0
  · rw [if_pos hn]
    exact ⟨'-', _, rfl, by decide, by decide, by decide, by decide⟩
  · rw [if_neg hn]
    rcases hd : natDigits n.toNat with _ | ⟨d, ds⟩
    · exact absurd hd (natDigitsAux_ne_nil _ _)
    · have hdd : isDigitB d = true := by
        have := natDigits_digits n.toNat d
        rw [hd] at this
        exact this (by simp)
      simp only [isDigitB, Bool.and_eq_true, decide_eq_true_eq] at hdd
      exact ⟨d, ds, rfl, by omega, by omega, by omega, by omega⟩

theorem quoteStr_cons (k : String) (X : List Char) :
    quoteStr k ++ X = '"' :: (escChars k.data ++ ('"' :: X)) := by
  unfold quoteStr
  simp [List.append_assoc]

theorem dumpsRaw_head_good (v : Json) :
    ∃ c cs', v.dumpsRaw = c :: cs' ∧ isWsChar c = false ∧ c.toNat ≠ 93 ∧ c.toNat ≠ 125 := by
  cases v with
  | null => refine ⟨'n', _, rfl, ?_, ?_, ?_⟩ <;> decide
  | bool b =>
    rcases b with _ | _
    · refine ⟨'f', _, rfl, ?_, ?_, ?_⟩ <;> decide
    · refine ⟨'t', _, rfl, ?_, ?_, ?_⟩ <;> decide
  | num n =>
    obtain ⟨d, ds, hd, h45, h57, h46, h47⟩ := intDigits_head n
    exact ⟨d, ds, hd, isWsChar_false_of_toNat (by omega), by omega, by omega⟩
  | str s => refine ⟨'"', _, rfl, ?_, ?_, ?_⟩ <;> decide
  | arr xs =>
    rcases xs with _ | ⟨x, xs⟩
    · refine ⟨'[', _, rfl, ?_, ?_, ?_⟩ <;> decide
    · refine ⟨'[', _, rfl, ?_, ?_, ?_⟩ <;> decide
  | obj kvs =>
    rcases kvs with _ | ⟨k, v, tl⟩
    · refine ⟨'\x7b', _, rfl, ?_, ?_, ?_⟩ <;> decide
    · refine ⟨'\x7b', _, rfl, ?_, ?_, ?_⟩ <;> decide

theorem parse_dumpsRaw (fuel : Nat) :
    (∀ (v : Json) (rest : List Char), sepOk rest → v.pfuel ≤ fuel →
      parseVal fuel (v.dumpsRaw ++ rest) = some (v, rest)) ∧
    (∀ (x : Json) (xs : JsonList) (rest : List Char), 1 + x.pfuel + xs.pfuelL ≤ fuel →
      parseElems fuel (x.dumpsRaw ++ (xs.dumpsRestL ++ (']' :: rest))) =
        some (JsonList.cons x xs, rest)) ∧
    (∀ (k : String) (v : Json) (kvs : JsonKvs) (rest : List Char),
      1 + v.pfuel + kvs.pfuelK ≤ fuel →
      parseMembers fuel
        (quoteStr k ++ (':' :: ' ' :: (v.dumpsRaw ++ (kvs.dumpsRestK ++ ('\x7d' :: rest))))) =
        some (JsonKvs.kcons k v kvs, rest)) := by
  induction fuel using Nat.strong_induction_on with
  | _ fuel ih =>
    refine ⟨?_, ?_, ?_⟩
    · intro v rest hsep hfu
      have hpos := pfuel_pos v
      obtain ⟨g, rfl⟩ : ∃ g, fuel = g + 1 := ⟨fuel - 1, by omega⟩
      rw [parseVal_succ]
      cases v with
      | null =>
        rw [show Json.null.dumpsRaw ++ rest = 'n' :: (['u', 'l', 'l'] ++ rest) from rfl,
          skipWs_cons _ (by decide), parseValCore_cons, if_pos rfl, expectChars_pre]
        rfl
      | bool b =>
        cases b with
        | true =>
          rw [show (Json.bool true).dumpsRaw ++ rest = 't' :: (['r', 'u', 'e'] ++ rest) from rfl,
            skipWs_cons _ (by decide), parseValCore_cons, if_neg (by decide), if_pos rfl,
            expectChars_pre]
          rfl
        | false =>
          rw [show (Json.bool false).dumpsRaw ++ rest =
              'f' :: (['a', 'l', 's', 'e'] ++ rest) from rfl,
            skipWs_cons _ (by decide), parseValCore_cons, if_neg (by decide),
            if_neg (by decide), if_pos rfl, expectChars_pre]
          rfl
      | num n =>
        obtain ⟨d, ds, hd, h45, h57, h46, h47⟩ := intDigits_head n
        have hds : (Json.num n).dumpsRaw ++ rest = d :: (ds ++ rest) := by
          show intDigits n ++ rest = _
          rw [hd, List.cons_append]
        have hn110 : ('n' : Char).toNat = 110 := by decide
        have ht116 : ('t' : Char).toNat = 116 := by decide
        have hf102 : ('f' : Char).toNat = 102 := by decide
        rw [hds, skipWs_cons _ (isWsChar_false_of_toNat (by omega)), parseValCore_cons,
          if_neg (ne_of_toNat_ne (by omega)), if_neg (ne_of_toNat_ne (by omega)),
          if_neg (ne_of_toNat_ne (by omega)), if_neg (by omega), if_neg (by omega),
          if_neg (by omega)]
        have hlast : d = '-' ∨ isDigitB d = true := by
          by_cases h45e : d.toNat = 45
          · exact Or.inl (charEq_of_toNat_eq (by rw [h45e]; decide))
          · refine Or.inr ?_
            simp only [isDigitB, Bool.and_eq_true, decide_eq_true_eq]
            omega
        rw [if_pos hlast, ← List.cons_append, ← hd]
        exact parseNum_spec n rest hsep
      | str s =>
        have hds : (Json.str s).dumpsRaw ++ rest = '"' :: (escChars s.data ++ '"' :: rest) := by
          show quoteStr s ++ rest = _
          unfold quoteStr
          simp [List.append_assoc]
        rw [hds, skipWs_cons _ (by decide), parseValCore_cons, if_neg (by decide),
          if_neg (by decide), if_neg (by decide), if_pos (by decide), parseStrBody_quote]
        rfl
      | arr xs =>
        cases xs with
        | nil =>
          rw [show (Json.arr .nil).dumpsRaw ++ rest = '[' :: (']' :: rest) from rfl,
            skipWs_cons _ (by decide), parseValCore_cons, if_neg (by decide),
            if_neg (by decide), if_neg (by decide), if_neg (by decide), if_pos (by decide),
            skipWs_cons _ (by decide), parseArrBody_cons, if_pos (by decide)]
        | cons x xs =>
          have hds : (Json.arr (.cons x xs)).dumpsRaw ++ rest =
              '[' :: (x.dumpsRaw ++ (xs.dumpsRestL ++ (']' :: rest))) := by
            show ('[' :: (x.dumpsRaw ++ xs.dumpsRestL ++ [']'])) ++ rest = _
            simp [List.append_assoc]
          rw [hds, skipWs_cons _ (by decide), parseValCore_cons, if_neg (by decide),
            if_neg (by decide), if_neg (by decide), if_neg (by decide), if_pos (by decide)]
          obtain ⟨c, cs', hc, hws, h93, h125⟩ := dumpsRaw_head_good x
          rw [hc, List.cons_append, skipWs_cons _ hws, parseArrBody_cons,
            if_neg (by omega), ← List.cons_append, ← hc]
          have hb : 1 + x.pfuel + xs.pfuelL ≤ g := by
            simp only [Json.pfuel, JsonList.pfuelL] at hfu
            omega
          rw [(ih g (by omega)).2.1 x xs rest hb]
          rfl
      | obj kvs =>
        cases kvs with
        | nil =>
          rw [show (Json.obj .nil).dumpsRaw ++ rest = '\x7b' :: ('\x7d' :: rest) from rfl,
            skipWs_cons _ (by decide), parseValCore_cons, if_neg (by decide),
            if_neg (by decide), if_neg (by decide), if_neg (by decide), if_neg (by decide),
            if_pos (by decide), skipWs_cons _ (by decide), parseObjBody_cons,
            if_pos (by decide)]
        | kcons k v tl =>
          have hds : (Json.obj (.kcons k v tl)).dumpsRaw ++ rest =
              '\x7b' :: (quoteStr k ++
                (':' :: ' ' :: (v.dumpsRaw ++ (tl.dumpsRestK ++ ('\x7d' :: rest))))) := by
            show ('\x7b' :: (quoteStr k ++ ':' :: ' ' :: v.dumpsRaw ++ tl.dumpsRestK ++
              ['\x7d'])) ++ rest = _
            simp [List.append_assoc]
          rw [hds, skipWs_cons _ (by decide), parseValCore_cons, if_neg (by decide),
            if_neg (by decide), if_neg (by decide), if_neg (by decide), if_neg (by decide),
            if_pos (by decide), quoteStr_cons, skipWs_cons _ (by decide), parseObjBody_cons,
            if_neg (by decide), ← quoteStr_cons]
          have hb : 1 + v.pfuel + tl.pfuelK ≤ g := by
            simp only [Json.pfuel, JsonKvs.pfuelK] at hfu
            omega
          rw [(ih g (by omega)).2.2 k v tl rest hb]
          rfl
    · intro x xs rest hb
      obtain ⟨g, rfl⟩ : ∃ g, fuel = g + 1 := ⟨fuel - 1, by omega⟩
      rw [parseElems_succ,
        (ih g (by omega)).1 x (xs.dumpsRestL ++ (']' :: rest)) (sepOk_restL xs rest)
          (by omega), Option.some_bind]
      cases xs with
      | nil =>
        rw [show JsonList.nil.dumpsRestL ++ (']' :: rest) = ']' :: rest from rfl,
          skipWs_cons _ (by decide), parseElemsSep_cons, if_neg (by decide),
          if_pos (by decide)]
      | cons y ys =>
        have hds : (JsonList.cons y ys).dumpsRestL ++ (']' :: rest) =
            ',' :: (' ' :: (y.dumpsRaw ++ (ys.dumpsRestL ++ (']' :: rest)))) := by
          show (',' :: ' ' :: y.dumpsRaw ++ ys.dumpsRestL) ++ (']' :: rest) = _
          simp [List.append_assoc]
        have hpy := pfuel_pos x
        have hby : 1 + y.pfuel + ys.pfuelL ≤ g := by
          simp only [JsonList.pfuelL] at hb
          omega
        rw [hds, skipWs_cons _ (by decide), parseElemsSep_cons, if_pos rfl, parseElems_ws,
          (ih g (by omega)).2.1 y ys rest hby]
        rfl
    · intro k v kvs rest hb
      obtain ⟨g, rfl⟩ : ∃ g, fuel = g + 1 := ⟨fuel - 1, by omega⟩
      rw [parseMembers_succ, quoteStr_cons, skipWs_cons _ (by decide), parseMemberKey_cons,
        if_pos (by decide), parseStrBody_quote, Option.some_bind,
        skipWs_cons _ (by decide), parseMemberColon_cons, if_pos rfl, parseVal_ws,
        (ih g (by omega)).1 v (kvs.dumpsRestK ++ ('\x7d' :: rest)) (sepOk_restK kvs rest)
          (by omega), Option.some_bind]
      cases kvs with
      | nil =>
        rw [show JsonKvs.nil.dumpsRestK ++ ('\x7d' :: rest) = '\x7d' :: rest from rfl,
          skipWs_cons _ (by decide), parseMemberSep_cons, if_neg (by decide),
          if_pos (by decide)]
      | kcons k2 v2 tl =>
        have hds : (JsonKvs.kcons k2 v2 tl).dumpsRestK ++ ('\x7d' :: rest) =
            ',' :: (' ' :: (quoteStr k2 ++
              (':' :: ' ' :: (v2.dumpsRaw ++ (tl.dumpsRestK ++ ('\x7d' :: rest)))))) := by
          show (',' :: ' ' :: quoteStr k2 ++ ':' :: ' ' :: v2.dumpsRaw ++ tl.dumpsRestK) ++
            ('\x7d' :: rest) = _
          simp [List.append_assoc]
        have hpv := pfuel_pos v
        have hb2 : 1 + v2.pfuel + tl.pfuelK ≤ g := by
          simp only [JsonKvs.pfuelK] at hb
          omega
        rw [hds, skipWs_cons _ (by decide), parseMemberSep_cons, if_pos rfl, parseMembers_ws,
          (ih g (by omega)).2.2 k2 v2 tl rest hb2]
        rfl

mutual

theorem pfuel_le_dumpsRaw : ∀ v : Json, v.pfuel ≤ v.dumpsRaw.length + 1
  | .null => by simp [Json.pfuel, Json.dumpsRaw]
  | .bool true => by simp [Json.pfuel, Json.dumpsRaw]
  | .bool false => by simp [Json.pfuel, Json.dumpsRaw]
  | .num n => by simp [Json.pfuel]
  | .str s => by simp [Json.pfuel]
  | .arr .nil => by simp [Json.pfuel, JsonList.pfuelL, Json.dumpsRaw]
  | .arr (.cons x xs) => by
    have h1 := pfuel_le_dumpsRaw x
    have h2 := pfuelL_le_dumpsRestL xs
    simp only [Json.pfuel, JsonList.pfuelL, Json.dumpsRaw, List.length_cons,
      List.length_append, List.length_singleton]
    omega
  | .obj .nil => by simp [Json.pfuel, JsonKvs.pfuelK, Json.dumpsRaw]
  | .obj (.kcons k v tl) => by
    have h1 := pfuel_le_dumpsRaw v
    have h2 := pfuelK_le_dumpsRestK tl
    simp only [Json.pfuel, JsonKvs.pfuelK, Json.dumpsRaw, List.length_cons,
      List.length_append, List.length_singleton]
    omega

theorem pfuelL_le_dumpsRestL : ∀ xs : JsonList, xs.pfuelL ≤ xs.dumpsRestL.length
  | .nil => by simp [JsonList.pfuelL, JsonList.dumpsRestL]
  | .cons y ys => by
    have h1 := pfuel_le_dumpsRaw y
    have h2 := pfuelL_le_dumpsRestL ys
    simp only [JsonList.pfuelL, JsonList.dumpsRestL, List.length_cons, List.length_append]
    omega

theorem pfuelK_le_dumpsRestK : ∀ kvs : JsonKvs, kvs.pfuelK ≤ kvs.dumpsRestK.length
  | .nil => by simp [JsonKvs.pfuelK, JsonKvs.dumpsRestK]
  | .kcons k2 v2 tl => by
    have h1 := pfuel_le_dumpsRaw v2
    have h2 := pfuelK_le_dumpsRestK tl
    simp only [JsonKvs.pfuelK, JsonKvs.dumpsRestK, List.length_cons, List.length_append]
    omega

end

theorem jsonLoads_dumpsRaw (v : Json) : jsonLoads v.dumpsRaw = some v := by
  unfold jsonLoads
  have hfu : v.pfuel ≤ v.dumpsRaw.length + 1 := pfuel_le_dumpsRaw v
  have hp := (parse_dumpsRaw (v.dumpsRaw.length + 1)).1 v [] sepOk_nil hfu
  rw [List.append_nil] at hp
  rw [hp, Option.some_bind]
  rfl

/-- Parsing inverts serialisation up to canonicalisation: the text carries
the objects in sorted key order, so the parse returns the canonical form. -/
theorem jsonLoads_dumps (v : Json) : jsonLoads v.dumps = some v.canon :=
  jsonLoads_dumpsRaw v.canon

/-! ## Timestamps

Python `datetime` values are modelled as epoch milliseconds.  `isoformat` /
`fromisoformat` are modelled by an injective decimal rendering with a
matching parse; the source only relies on the pair round-tripping and on
parse failure for non-timestamp strings. -/

def isoformat (ms : Nat) : String := String.mk (natDigits ms)

def fromisoformat (s : String) : Option Nat :=
  if s.data.isEmpty then none
  else if s.data.all isDigitB then some (digitsVal s.data) else none

theorem fromisoformat_isoformat (ms : Nat) : fromisoformat (isoformat ms) = some ms := by
  unfold fromisoformat isoformat
  rw [if_neg (by simp only [List.isEmpty_iff]; exact natDigitsAux_ne_nil ms ms),
    if_pos (by rw [List.all_eq_true]; exact natDigits_digits ms), digitsVal_natDigits]

/-! ## Metadata records (`TabletMetadata`, `CapsuleMetadata`)

Fields hold the millisecond timestamp directly; the free-form `extra`
dict is a JSON object item list.  `from_dict` is made deterministic by an
explicit `now` argument (the source calls `datetime.now`), and is partial
where Python would raise (`fromisoformat` on a malformed or non-string
timestamp).  Where Python's dynamic typing would silently store a value of
an unexpected type, the typed model rejects instead; no property below
exercises those corners. -/

/-- Python truthiness, used by the `if created_raw:` guard in `from_dict`. -/
def jsonTruthy : Json → Bool
  | .null => false
  | .bool b => b
  | .num n => decide (n ≠ 0)
  | .str s => !s.data.isEmpty
  | .arr .nil => false
  | .arr _ => true
  | .obj .nil => false
  | .obj _ => true

/-- The `created_at` extraction of `from_dict` (both formats share it). -/
def getCreated (now : Nat) (d : JsonKvs) : Option Nat :=
  match d.find "created_at" with
  | none => some now
  | some cr =>
    if jsonTruthy cr then
      match cr with
      | .str s => fromisoformat s
      | _ => none
    else some now

/-- The `payload.get(key, default)` pattern for a string field. -/
def getStrD (d : JsonKvs) (k dflt : String) : Option String :=
  match d.find k with
  | none => some dflt
  | some (.str s) => some s
  | some _ => none

/-- The `payload.get(key)` pattern for an optional string field. -/
def getOptStr (d : JsonKvs) (k : String) : Option (Option String) :=
  match d.find k with
  | none => some none
  | some .null => some none
  | some (.str s) => some (some s)
  | some _ => none

/-- String elements of a JSON array (`list(payload.get("tags", []))`). -/
def strListOf : JsonList → Option (List String)
  | .nil => some []
  | .cons (.str s) tl => (strListOf tl).map fun r => s :: r
  | .cons _ _ => none

/-- The `list(payload.get("tags", []))` pattern. -/
def getTags (d : JsonKvs) (k : String) : Option (List String) :=
  match d.find k with
  | none => some []
  | some (.arr xs) => strListOf xs
  | some _ => none

/-- The `dict(payload.get("extra", {}))` pattern. -/
def getExtra (d : JsonKvs) (k : String) : Option JsonKvs :=
  match d.find k with
  | none => some .nil
  | some (.obj kvs) => some kvs
  | some _ => none

/-- JSON value of an optional string field. -/
def optStr : Option String → Json
  | none => .null
  | some s => .str s

/-- JSON array of strings. -/
def strArr : List String → JsonList
  | [] => .nil
  | s :: tl => .cons (.str s) (strArr tl)

structure TabletEntry where
  path : String
  diff : String
  notes : String
deriving DecidableEq, Repr

structure TabletMetadata where
  title : String
  summary : String
  author : Option String
  created_at : Nat
  tags : List String
  revision : Option String
  extra : JsonKvs
deriving DecidableEq

/-- Model of `TabletMetadata.to_dict`, key insertion order as in the
source (irrelevant after the sorted serialisation). -/
def TabletMetadata.to_dict (m : TabletMetadata) : Json :=
  .obj (.kcons "title" (.str m.title)
    (.kcons "summary" (.str m.summary)
      (.kcons "author" (optStr m.author)
        (.kcons "created_at" (.str (isoformat m.created_at))
          (.kcons "tags" (.arr (strArr m.tags))
            (.kcons "revision" (optStr m.revision)
              (.kcons "extra" (.obj m.extra) .nil)))))))

/-- Model of `TabletMetadata.from_dict`. -/
def TabletMetadata.from_dict (now : Nat) (d : JsonKvs) : Option TabletMetadata :=
  (getCreated now d).bind fun created =>
    (getStrD d "title" "Untitled Tablet").bind fun title =>
      (getStrD d "summary" "").bind fun summary =>
        (getOptStr d "author").bind fun author =>
          (getTags d "tags").bind fun tags =>
            (getOptStr d "revision").bind fun revision =>
              (getExtra d "extra").map fun extra =>
                { title := title, summary := summary, author := author, created_at := created,
                  tags := tags, revision := revision, extra := extra }

structure CapsuleMetadata where
  project : String
  summary : String
  author : Option String
  created_at : Nat
  branch : Option String
  revision : Option String
  extra : JsonKvs
deriving DecidableEq

/-- Model of `CapsuleMetadata.to_dict`. -/
def CapsuleMetadata.to_dict (m : CapsuleMetadata) : Json :=
  .obj (.kcons "project" (.str m.project)
    (.kcons "summary" (.str m.summary)
      (.kcons "author" (optStr m.author)
        (.kcons "created_at" (.str (isoformat m.created_at))
          (.kcons "branch" (optStr m.branch)
            (.kcons "revision" (optStr m.revision)
              (.kcons "extra" (.obj m.extra) .nil)))))))

/-- Model of `CapsuleMetadata.from_dict`. -/
def CapsuleMetadata.from_dict (now : Nat) (d : JsonKvs) : Option CapsuleMetadata :=
  (getCreated now d).bind fun created =>
    (getStrD d "project" "Unnamed Project").bind fun project =>
      (getStrD d "summary" "").bind fun summary =>
        (getOptStr d "author").bind fun author =>
          (getOptStr d "branch").bind fun branch =>
            (getOptStr d "revision").bind fun revision =>
              (getExtra d "extra").map fun extra =>
                { project := project, summary := summary, author := author,
                  created_at := created, branch := branch, revision := revision, extra := extra }

/-! ## Wire primitives shared by both formats -/

/-- `TABLET_MAGIC = b"AURATAB1"`. -/
def TABLET_MAGIC : List Nat := [65, 85, 82, 65, 84, 65, 66, 49]

/-- `CAPSULE_MAGIC = b"AURACTX1"`. -/
def CAPSULE_MAGIC : List Nat := [65, 85, 82, 65, 67, 84, 88, 49]

/-- `TABLET_VERSION = 1`, `CAPSULE_VERSION = 1`. -/
def FORMAT_VERSION : Nat := 1

/-- Model of `_encode_string`: 4-byte big-endian length prefix plus UTF-8
payload; fails (`StringTooLarge`) beyond the 32-bit range. -/
def encodeString (s : String) : Option (List Nat) :=
  if (utf8Encode s.data).length > 0xFFFFFFFF then none
  else some (packBE 4 (utf8Encode s.data).length ++ utf8Encode s.data)

/-- Fixed-width read lifted into the decode monad. -/
def readBEx (b : List Nat) (cursor w : Nat) : Except DecodeError Nat :=
  match readBE b cursor w with
  | some v => .ok v
  | none => .error .TruncatedInput

/-- UTF-8 decoding lifted into the decode monad. -/
def utf8Dx (bytes : List Nat) : Except DecodeError String :=
  match utf8Decode bytes with
  | some cs => .ok (String.mk cs)
  | none => .error .InvalidUtf8

/-- Model of `_decode_string`: bounds-checked length read, bounds-checked
payload slice, then UTF-8 decoding. -/
def decodeString (b : List Nat) (cursor : Nat) : Except DecodeError (String × Nat) :=
  (readBEx b cursor 4).bind fun len =>
    if cursor + 4 + len ≤ b.length then
      (utf8Dx ((b.drop (cursor + 4)).take len)).map fun s => (s, cursor + 4 + len)
    else .error .TruncatedInput

/-- JSON-decode a metadata blob into a dict (`json.loads` plus the implicit
requirement of `from_dict` that the payload is a dict). -/
def loadsObj (s : String) : Except DecodeError JsonKvs :=
  match jsonLoads s.data with
  | some (.obj kvs) => .ok kvs
  | some _ => .error .MalformedMetadata
  | none => .error .MalformedMetadata

/-! ## The Tablet format (`src/tablet.py`) -/

structure Tablet where
  metadata : TabletMetadata
  entries : List TabletEntry
deriving DecidableEq

/-- Per-entry encoding loop of `Tablet.to_bytes`. -/
def encodeEntries : List TabletEntry → Option (List Nat)
  | [] => some []
  | e :: es =>
    (encodeString e.path).bind fun p =>
      (encodeString e.diff).bind fun d =>
        (encodeString e.notes).bind fun n2 =>
          (encodeEntries es).map fun r => p ++ d ++ n2 ++ r

/-- Model of `Tablet.to_bytes`. -/
def Tablet.to_bytes (T : Tablet) : Option (List Nat) :=
  if T.metadata.created_at < 2 ^ 64 then
    (encodeString (String.mk (Json.dumps T.metadata.to_dict))).bind fun metaB =>
      if T.entries.length < 2 ^ 32 then
        (encodeEntries T.entries).map fun entB =>
          TABLET_MAGIC ++ packBE 2 FORMAT_VERSION ++ packBE 8 T.metadata.created_at ++
            metaB ++ packBE 4 T.entries.length ++ entB
      else none
  else none

/-- `TabletMetadata.from_dict` lifted into the decode monad (a raise inside
it surfaces as a metadata failure of the whole decode). -/
def fromDictT (now : Nat) (kvs : JsonKvs) : Except DecodeError TabletMetadata :=
  match TabletMetadata.from_dict now kvs with
  | some md => .ok md
  | none => .error .MalformedMetadata

/-- Entry-reading loop of `Tablet.from_bytes`. -/
def decodeEntries (b : List Nat) : Nat → Nat → Except DecodeError (List TabletEntry × Nat)
  | cursor, 0 => .ok ([], cursor)
  | cursor, count + 1 =>
    (decodeString b cursor).bind fun r1 =>
      (decodeString b r1.2).bind fun r2 =>
        (decodeString b r2.2).bind fun r3 =>
          (decodeEntries b r3.2 count).map fun r4 =>
            (TabletEntry.mk r1.1 r2.1 r3.1 :: r4.1, r4.2)

/-- Model of `Tablet.from_bytes`.  The header's binary timestamp overwrites
whatever `from_dict` put into `created_at`. -/
def Tablet.from_bytes (now : Nat) (b : List Nat) : Except DecodeError Tablet :=
  if b.length < 8 then .error .TruncatedInput
  else if b.take 8 ≠ TABLET_MAGIC then .error .BadMagic
  else
    (readBEx b 8 2).bind fun version =>
      if version ≠ FORMAT_VERSION then .error .UnsupportedVersion
      else
        (readBEx b 10 8).bind fun created =>
          (decodeString b 18).bind fun rm =>
            (loadsObj rm.1).bind fun kvs =>
              (fromDictT now kvs).bind fun md =>
                (readBEx b rm.2 4).bind fun cnt =>
                  (decodeEntries b (rm.2 + 4) cnt).map fun r =>
                    Tablet.mk { md with created_at := created } r.1

/-! ## The Capsule format (`src/medicine_cabinet/context_capsule.py`) -/

inductive SectionKind where
  | TEXT
  | JSON
  | BINARY
deriving DecidableEq, Repr

/-- Wire value of a section kind (`SectionKind` is an `IntEnum`). -/
def SectionKind.val : SectionKind → Nat
  | .TEXT => 1
  | .JSON => 2
  | .BINARY => 3

/-- Model of the `SectionKind(kind_value)` conversion, which raises for a
byte outside the enumeration. -/
def kindOfByte : Nat → Option SectionKind
  | 1 => some .TEXT
  | 2 => some .JSON
  | 3 => some .BINARY
  | _ => none

structure CapsuleSection where
  name : String
  kind : SectionKind
  payload : List Nat
deriving DecidableEq

structure ContextCapsule where
  metadata : CapsuleMetadata
  sections : List CapsuleSection
deriving DecidableEq

/-- Model of the `get_section` loop: first section with the given name. -/
def getSectionL : List CapsuleSection → String → Option CapsuleSection
  | [], _ => none
  | s :: tl, name => if s.name = name then some s else getSectionL tl name

/-- Model of `ContextCapsule.get_section`. -/
def ContextCapsule.get_section (C : ContextCapsule) (name : String) : Option CapsuleSection :=
  getSectionL C.sections name

/-- Model of `ContextCapsule.set_section`: with `overwrite` it first filters
out every section sharing the name, then appends. -/
def ContextCapsule.set_section (C : ContextCapsule) (s : CapsuleSection)
    (overwrite : Bool := true) : ContextCapsule :=
  if overwrite then
    { C with sections := C.sections.filter (fun x => x.name ≠ s.name) ++ [s] }
  else { C with sections := C.sections ++ [s] }

/-- Section encoding loop of `ContextCapsule.to_bytes`, generalised to an
arbitrary kind byte (the raw form is what a buffer forger controls; the
real encoder instantiates it with `SectionKind.val`, see
`encodeSections`).  `bytearray.append` requires a value below 256. -/
def encodeSectionsRaw : List (String × Nat × List Nat) → Option (List Nat)
  | [] => some []
  | (name, kv, payload) :: tl =>
    (encodeString name).bind fun nb =>
      if kv < 256 then
        if payload.length > 0xFFFFFFFF then none
        else
          (encodeSectionsRaw tl).map fun r =>
            nb ++ [kv] ++ packBE 4 payload.length ++ payload ++ r
      else none

/-- Section encoding loop of `ContextCapsule.to_bytes`. -/
def encodeSections (sections : List CapsuleSection) : Option (List Nat) :=
  encodeSectionsRaw (sections.map fun s => (s.name, s.kind.val, s.payload))

/-- Model of `ContextCapsule.to_bytes`. -/
def ContextCapsule.to_bytes (C : ContextCapsule) : Option (List Nat) :=
  if C.metadata.created_at < 2 ^ 64 then
    (encodeString (String.mk (Json.dumps C.metadata.to_dict))).bind fun metaB =>
      if C.sections.length < 2 ^ 32 then
        (encodeSections C.sections).map fun secB =>
          CAPSULE_MAGIC ++ packBE 2 FORMAT_VERSION ++ packBE 8 C.metadata.created_at ++
            metaB ++ packBE 4 C.sections.length ++ secB
      else none
  else none

/-- `CapsuleMetadata.from_dict` lifted into the decode monad. -/
def fromDictC (now : Nat) (kvs : JsonKvs) : Except DecodeError CapsuleMetadata :=
  match CapsuleMetadata.from_dict now kvs with
  | some md => .ok md
  | none => .error .MalformedMetadata

/-- The kind-byte read of `ContextCapsule.from_bytes`: explicit bounds
check, then the enumeration conversion. -/
def readKind (b : List Nat) (cursor : Nat) : Except DecodeError SectionKind :=
  if cursor < b.length then
    match kindOfByte (b.getD cursor 0) with
    | some k => .ok k
    | none => .error .UnknownSectionKind
  else .error .TruncatedInput

/-- The payload read of `ContextCapsule.from_bytes`: length prefix, bounds
check, slice. -/
def readPayload (b : List Nat) (cursor : Nat) : Except DecodeError (List Nat × Nat) :=
  (readBEx b cursor 4).bind fun plen =>
    if cursor + 4 + plen ≤ b.length then
      .ok ((b.drop (cursor + 4)).take plen, cursor + 4 + plen)
    else .error .TruncatedInput

/-- Section-reading loop of `ContextCapsule.from_bytes`. -/
def decodeSections (b : List Nat) : Nat → Nat → Except DecodeError (List CapsuleSection × Nat)
  | cursor, 0 => .ok ([], cursor)
  | cursor, count + 1 =>
    (decodeString b cursor).bind fun rn =>
      (readKind b rn.2).bind fun kind =>
        (readPayload b (rn.2 + 1)).bind fun rp =>
          (decodeSections b rp.2 count).map fun r =>
            (CapsuleSection.mk rn.1 kind rp.1 :: r.1, r.2)

/-- Model of `ContextCapsule.from_bytes`. -/
def ContextCapsule.from_bytes (now : Nat) (b : List Nat) : Except DecodeError ContextCapsule :=
  if b.length < 8 then .error .TruncatedInput
  else if b.take 8 ≠ CAPSULE_MAGIC then .error .BadMagic
  else
    (readBEx b 8 2).bind fun version =>
      if version ≠ FORMAT_VERSION then .error .UnsupportedVersion
      else
        (readBEx b 10 8).bind fun created =>
          (decodeString b 18).bind fun rm =>
            (loadsObj rm.1).bind fun kvs =>
              (fromDictC now kvs).bind fun md =>
                (readBEx b rm.2 4).bind fun cnt =>
                  (decodeSections b (rm.2 + 4) cnt).map fun r =>
                    ContextCapsule.mk { md with created_at := created } r.1

/-! ## Decode-of-encode lemmas

Every read stage is characterised against a buffer whose tail from the
cursor starts with the stage's encoded field (`b.drop c = field ++ suffix`),
which composes cleanly through the sequential decoders. -/

theorem dropLen {α : Type} (l₁ l₂ : List α) : (l₁ ++ l₂).drop l₁.length = l₂ := by
  simpa using @List.drop_append α l₁ l₂ 0

theorem takeLen {α : Type} (l₁ l₂ : List α) : (l₁ ++ l₂).take l₁.length = l₁ := by
  simpa using @List.take_append α l₁ l₂ 0

theorem drop_len_of_drop {b suf : List Nat} {c : Nat} (mid : List Nat)
    (hb : b.drop c = mid ++ suf) : b.drop (c + mid.length) = suf := by
  rw [← List.drop_drop, hb, dropLen]

theorem length_ge_of_drop {b suf : List Nat} {c : Nat} {mid : List Nat}
    (hb : b.drop c = mid ++ suf) (hc : c ≤ b.length) :
    c + mid.length + suf.length = b.length := by
  have := congrArg List.length hb
  rw [List.length_drop, List.length_append] at this
  omega

theorem exc_bind_ok {ε α β : Type} (a : α) (f : α → Except ε β) :
    (Except.ok a : Except ε α).bind f = f a := rfl

theorem exc_bind_err {ε α β : Type} (e : ε) (f : α → Except ε β) :
    (Except.error e : Except ε α).bind f = .error e := rfl

theorem exc_map_ok {ε α β : Type} (a : α) (f : α → β) :
    Except.map f (Except.ok a : Except ε α) = .ok (f a) := rfl

theorem exc_map_err {ε α β : Type} (e : ε) (f : α → β) :
    Except.map f (Except.error e : Except ε α) = .error e := rfl

theorem take_len_eq {α : Type} {l₁ : List α} {w : Nat} (h : l₁.length = w) (l₂ : List α) :
    (l₁ ++ l₂).take w = l₁ := by
  subst h
  exact takeLen l₁ l₂

theorem readBE_at {b suf : List Nat} {c w n : Nat} (hb : b.drop c = packBE w n ++ suf)
    (hn : n < 256 ^ w) (hc : c ≤ b.length) : readBE b c w = some n := by
  have hlen := length_ge_of_drop hb hc
  rw [packBE_length] at hlen
  unfold readBE
  rw [if_pos (by omega), hb, take_len_eq (packBE_length w n), beVal_packBE hn]

theorem readBEx_at {b suf : List Nat} {c w n : Nat} (hb : b.drop c = packBE w n ++ suf)
    (hn : n < 256 ^ w) (hc : c ≤ b.length) : readBEx b c w = .ok n := by
  unfold readBEx
  rw [readBE_at hb hn hc]

theorem decodeString_at {b suf mb : List Nat} {c : Nat} {s : String}
    (henc : encodeString s = some mb) (hb : b.drop c = mb ++ suf) (hc : c ≤ b.length) :
    decodeString b c = .ok (s, c + mb.length) := by
  unfold encodeString at henc
  by_cases hg : (utf8Encode s.data).length > 0xFFFFFFFF
  · rw [if_pos hg] at henc
    cases henc
  · rw [if_neg hg] at henc
    have hmb := (Option.some.injEq _ _).mp henc.symm
    subst hmb
    have hlen := length_ge_of_drop hb hc
    simp only [List.length_append, packBE_length] at hlen
    have hb4 : b.drop c = packBE 4 (utf8Encode s.data).length ++ (utf8Encode s.data ++ suf) := by
      rw [hb, List.append_assoc]
    have h4 : b.drop (c + 4) = utf8Encode s.data ++ suf := by
      have := drop_len_of_drop (packBE 4 (utf8Encode s.data).length) hb4
      rw [packBE_length] at this
      exact this
    unfold decodeString
    rw [readBEx_at hb4 (by omega) hc, exc_bind_ok, if_pos (by omega), h4, takeLen]
    have hug : utf8Dx (utf8Encode s.data) = .ok (String.mk s.data) := by
      unfold utf8Dx
      rw [utf8Decode_encode]
    rw [hug, exc_map_ok]
    simp only [List.length_append, packBE_length]
    have : c + 4 + (utf8Encode s.data).length = c + (4 + (utf8Encode s.data).length) := by omega
    rw [this]

theorem decodeEntries_at (es : List TabletEntry) :
    ∀ (b eb suf : List Nat) (c : Nat), encodeEntries es = some eb → b.drop c = eb ++ suf →
      c ≤ b.length → decodeEntries b c es.length = .ok (es, c + eb.length) := by
  induction es with
  | nil =>
    intro b eb suf c henc hb hc
    unfold encodeEntries at henc
    have : eb = [] := by cases henc; rfl
    subst this
    simp [decodeEntries]
  | cons e es ih =>
    intro b eb suf c henc hb hc
    unfold encodeEntries at henc
    rcases hp : encodeString e.path with _ | pb
    · rw [hp] at henc; cases henc
    rcases hd : encodeString e.diff with _ | db
    · rw [hp, hd] at henc; simp [Option.bind] at henc
    rcases hn : encodeString e.notes with _ | nb
    · rw [hp, hd, hn] at henc; simp [Option.bind] at henc
    rcases hr : encodeEntries es with _ | rb
    · rw [hp, hd, hn, hr] at henc; simp [Option.bind] at henc
    rw [hp, hd, hn, hr] at henc
    have henc2 : some (pb ++ db ++ nb ++ rb) = some eb := henc
    obtain rfl : pb ++ db ++ nb ++ rb = eb := (Option.some.injEq _ _).mp henc2
    have hb1 : b.drop c = pb ++ (db ++ (nb ++ (rb ++ suf))) := by
      rw [hb]; simp [List.append_assoc]
    have hlen := length_ge_of_drop hb1 hc
    simp only [List.length_append] at hlen
    show decodeEntries b c (es.length + 1) = _
    unfold decodeEntries
    rw [decodeString_at hp hb1 hc, exc_bind_ok]
    have hb2 : b.drop (c + pb.length) = db ++ (nb ++ (rb ++ suf)) := drop_len_of_drop pb hb1
    rw [decodeString_at hd hb2 (by omega), exc_bind_ok]
    have hb3 : b.drop (c + pb.length + db.length) = nb ++ (rb ++ suf) :=
      drop_len_of_drop db hb2
    rw [decodeString_at hn hb3 (by omega), exc_bind_ok]
    have hb4 : b.drop (c + pb.length + db.length + nb.length) = rb ++ suf :=
      drop_len_of_drop nb hb3
    rw [ih b rb suf _ hr hb4 (by omega), exc_map_ok]
    have harith : c + pb.length + db.length + nb.length + rb.length =
        c + (pb ++ db ++ nb ++ rb).length := by
      simp only [List.length_append]
      omega
    rw [harith]

theorem kindOfByte_val (k : SectionKind) : kindOfByte k.val = some k := by
  cases k <;> rfl

theorem kind_val_lt (k : SectionKind) : k.val < 256 := by
  cases k <;> decide

theorem readKind_at {b suf : List Nat} {c kv : Nat} {k : SectionKind}
    (hb : b.drop c = kv :: suf) (hkv : kindOfByte kv = some k) (hc : c ≤ b.length) :
    readKind b c = .ok k := by
  have hlen : c + 1 + suf.length = b.length := by
    have := @length_ge_of_drop b suf c [kv] (by simpa using hb) hc
    simpa using this
  have hget : b.getD c 0 = kv := by
    rw [List.getD_eq_getElem?_getD]
    have h0 : (b.drop c)[0]? = b[c + 0]? := List.getElem?_drop b c 0
    rw [hb] at h0
    simp only [List.getElem?_cons_zero] at h0
    rw [Nat.add_zero] at h0
    rw [← h0]
    rfl
  unfold readKind
  rw [if_pos (by omega), hget, hkv]

theorem readPayload_at {b suf payload : List Nat} {c : Nat}
    (hb : b.drop c = packBE 4 payload.length ++ (payload ++ suf))
    (hpl : payload.length < 2 ^ 32) (hc : c ≤ b.length) :
    readPayload b c = .ok (payload, c + 4 + payload.length) := by
  have hlen := length_ge_of_drop hb hc
  simp only [List.length_append, packBE_length] at hlen
  have h4 : b.drop (c + 4) = payload ++ suf := by
    have := drop_len_of_drop (packBE 4 payload.length) hb
    rw [packBE_length] at this
    exact this
  unfold readPayload
  rw [readBEx_at hb (by omega) hc, exc_bind_ok, if_pos (by omega), h4, takeLen]

theorem decodeSections_at (ss : List CapsuleSection) :
    ∀ (b sb suf : List Nat) (c : Nat), encodeSections ss = some sb → b.drop c = sb ++ suf →
      c ≤ b.length → decodeSections b c ss.length = .ok (ss, c + sb.length) := by
  induction ss with
  | nil =>
    intro b sb suf c henc hb hc
    unfold encodeSections encodeSectionsRaw at henc
    have : sb = [] := by cases henc; rfl
    subst this
    simp [decodeSections]
  | cons s ss ih =>
    intro b sb suf c henc hb hc
    unfold encodeSections at henc
    rw [List.map_cons] at henc
    unfold encodeSectionsRaw at henc
    rcases hnb : encodeString s.name with _ | nb
    · rw [hnb] at henc; cases henc
    rw [hnb, Option.some_bind, if_pos (kind_val_lt s.kind)] at henc
    by_cases hpl : s.payload.length > 0xFFFFFFFF
    · rw [if_pos hpl] at henc; cases henc
    rw [if_neg hpl] at henc
    rcases hrb : encodeSectionsRaw (ss.map fun s => (s.name, s.kind.val, s.payload)) with _ | rb
    · rw [hrb] at henc; cases henc
    rw [hrb] at henc
    have henc2 : some (nb ++ [s.kind.val] ++ packBE 4 s.payload.length ++ s.payload ++ rb) =
        some sb := henc
    obtain rfl : nb ++ [s.kind.val] ++ packBE 4 s.payload.length ++ s.payload ++ rb = sb :=
      (Option.some.injEq _ _).mp henc2
    have hb1 : b.drop c = nb ++ ([s.kind.val] ++ (packBE 4 s.payload.length ++
        (s.payload ++ (rb ++ suf)))) := by
      rw [hb]; simp [List.append_assoc]
    have hlen := length_ge_of_drop hb1 hc
    simp only [List.length_append, List.length_singleton, packBE_length] at hlen
    show decodeSections b c (ss.length + 1) = _
    unfold decodeSections
    rw [decodeString_at hnb hb1 hc, exc_bind_ok]
    have hb2 : b.drop (c + nb.length) = s.kind.val :: (packBE 4 s.payload.length ++
        (s.payload ++ (rb ++ suf))) := by
      have := drop_len_of_drop nb hb1
      simpa using this
    rw [readKind_at hb2 (kindOfByte_val s.kind) (by omega), exc_bind_ok]
    have hb3 : b.drop (c + nb.length + 1) = packBE 4 s.payload.length ++
        (s.payload ++ (rb ++ suf)) := by
      have hb2b : b.drop (c + nb.length) = [s.kind.val] ++ (packBE 4 s.payload.length ++
          (s.payload ++ (rb ++ suf))) := by simpa using hb2
      have := drop_len_of_drop [s.kind.val] hb2b
      simpa using this
    rw [readPayload_at hb3 (by omega) (by omega), exc_bind_ok]
    have hb4 : b.drop (c + nb.length + 1 + 4 + s.payload.length) = rb ++ suf := by
      have step1 := drop_len_of_drop (packBE 4 s.payload.length) hb3
      rw [packBE_length] at step1
      exact drop_len_of_drop s.payload step1
    have hrb2 : encodeSections ss = some rb := hrb
    rw [ih b rb suf _ hrb2 hb4 (by omega), exc_map_ok]
    have harith : c + nb.length + 1 + 4 + s.payload.length + rb.length =
        c + (nb ++ [s.kind.val] ++ packBE 4 s.payload.length ++ s.payload ++ rb).length := by
      simp only [List.length_append, List.length_singleton, packBE_length]
      omega
    rw [harith]

/-! ## Metadata blob round-trip -/

/-- Canonicalisation of a free-form extension dict: exactly the reordering
`canon` applies to an embedded object. -/
def canonExtra (kvs : JsonKvs) : JsonKvs := JsonKvs.ofList (sortKvs kvs.canonK.toList)

theorem canon_optStr (a : Option String) : (optStr a).canon = optStr a := by
  cases a <;> rfl

theorem canonL_strArr (l : List String) : (strArr l).canonL = strArr l := by
  induction l with
  | nil => rfl
  | cons s tl ih =>
    show JsonList.cons (Json.str s).canon (strArr tl).canonL = _
    rw [ih]
    rfl

/-- Sorted, canonicalised item list of a Tablet metadata dict: what
`json.loads` sees in the serialised blob. -/
def tabletDictCanon (m : TabletMetadata) : JsonKvs :=
  .kcons "author" (optStr m.author)
    (.kcons "created_at" (.str (isoformat m.created_at))
      (.kcons "extra" (.obj (canonExtra m.extra))
        (.kcons "revision" (optStr m.revision)
          (.kcons "summary" (.str m.summary)
            (.kcons "tags" (.arr (strArr m.tags))
              (.kcons "title" (.str m.title) .nil))))))

theorem canonTabletDict (m : TabletMetadata) :
    m.to_dict.canon = .obj (.kcons "author" ((optStr m.author).canon)
      (.kcons "created_at" (.str (isoformat m.created_at))
        (.kcons "extra" (.obj (canonExtra m.extra))
          (.kcons "revision" ((optStr m.revision).canon)
            (.kcons "summary" (.str m.summary)
              (.kcons "tags" (.arr ((strArr m.tags).canonL))
                (.kcons "title" (.str m.title) .nil))))))) := rfl

theorem canonTabletDict2 (m : TabletMetadata) :
    m.to_dict.canon = .obj (tabletDictCanon m) := by
  rw [canonTabletDict, canon_optStr, canon_optStr, canonL_strArr]
  rfl

/-- Sorted, canonicalised item list of a Capsule metadata dict. -/
def capsuleDictCanon (m : CapsuleMetadata) : JsonKvs :=
  .kcons "author" (optStr m.author)
    (.kcons "branch" (optStr m.branch)
      (.kcons "created_at" (.str (isoformat m.created_at))
        (.kcons "extra" (.obj (canonExtra m.extra))
          (.kcons "project" (.str m.project)
            (.kcons "revision" (optStr m.revision)
              (.kcons "summary" (.str m.summary) .nil))))))

theorem canonCapsuleDict (m : CapsuleMetadata) :
    m.to_dict.canon = .obj (.kcons "author" ((optStr m.author).canon)
      (.kcons "branch" ((optStr m.branch).canon)
        (.kcons "created_at" (.str (isoformat m.created_at))
          (.kcons "extra" (.obj (canonExtra m.extra))
            (.kcons "project" (.str m.project)
              (.kcons "revision" ((optStr m.revision).canon)
                (.kcons "summary" (.str m.summary) .nil))))))) := rfl

theorem canonCapsuleDict2 (m : CapsuleMetadata) :
    m.to_dict.canon = .obj (capsuleDictCanon m) := by
  rw [canonCapsuleDict, canon_optStr, canon_optStr, canon_optStr]
  rfl

theorem strListOf_strArr (l : List String) : strListOf (strArr l) = some l := by
  induction l with
  | nil => rfl
  | cons s tl ih =>
    show (strListOf (strArr tl)).map _ = _
    rw [ih]
    rfl

theorem getOptStr_optStr {d : JsonKvs} {k : String} {a : Option String}
    (h : d.find k = some (optStr a)) : getOptStr d k = some a := by
  unfold getOptStr
  rw [h]
  cases a <;> rfl

theorem jsonTruthy_isoformat (ms : Nat) : jsonTruthy (.str (isoformat ms)) = true := by
  have h := natDigitsAux_ne_nil ms ms
  rcases hd : natDigits ms with _ | ⟨c, cs⟩
  · exact absurd hd h
  · have hs : isoformat ms = String.mk (c :: cs) := by unfold isoformat; rw [hd]
    rw [hs]
    rfl

theorem getCreated_iso {d : JsonKvs} {ms : Nat} (now : Nat)
    (h : d.find "created_at" = some (.str (isoformat ms))) : getCreated now d = some ms := by
  unfold getCreated
  rw [h]
  show (if jsonTruthy (Json.str (isoformat ms)) = true then fromisoformat (isoformat ms)
    else some now) = some ms
  rw [if_pos (jsonTruthy_isoformat ms), fromisoformat_isoformat]

theorem from_dict_tabletDictCanon (now : Nat) (m : TabletMetadata) :
    TabletMetadata.from_dict now (tabletDictCanon m) =
      some { m with extra := canonExtra m.extra } := by
  unfold TabletMetadata.from_dict
  rw [@getCreated_iso (tabletDictCanon m) m.created_at now rfl, Option.some_bind,
    show getStrD (tabletDictCanon m) "title" "Untitled Tablet" = some m.title from rfl,
    Option.some_bind,
    show getStrD (tabletDictCanon m) "summary" "" = some m.summary from rfl,
    Option.some_bind,
    getOptStr_optStr (d := tabletDictCanon m) (k := "author") (a := m.author) rfl,
    Option.some_bind,
    show getTags (tabletDictCanon m) "tags" = strListOf (strArr m.tags) from rfl,
    strListOf_strArr, Option.some_bind,
    getOptStr_optStr (d := tabletDictCanon m) (k := "revision") (a := m.revision) rfl,
    Option.some_bind,
    show getExtra (tabletDictCanon m) "extra" = some (canonExtra m.extra) from rfl]
  rfl

theorem from_dict_capsuleDictCanon (now : Nat) (m : CapsuleMetadata) :
    CapsuleMetadata.from_dict now (capsuleDictCanon m) =
      some { m with extra := canonExtra m.extra } := by
  unfold CapsuleMetadata.from_dict
  rw [@getCreated_iso (capsuleDictCanon m) m.created_at now rfl, Option.some_bind,
    show getStrD (capsuleDictCanon m) "project" "Unnamed Project" = some m.project from rfl,
    Option.some_bind,
    show getStrD (capsuleDictCanon m) "summary" "" = some m.summary from rfl,
    Option.some_bind,
    getOptStr_optStr (d := capsuleDictCanon m) (k := "author") (a := m.author) rfl,
    Option.some_bind,
    getOptStr_optStr (d := capsuleDictCanon m) (k := "branch") (a := m.branch) rfl,
    Option.some_bind,
    getOptStr_optStr (d := capsuleDictCanon m) (k := "revision") (a := m.revision) rfl,
    Option.some_bind,
    show getExtra (capsuleDictCanon m) "extra" = some (canonExtra m.extra) from rfl]
  rfl

theorem drop_len_eq {α : Type} {l₁ : List α} {w : Nat} (h : l₁.length = w) (l₂ : List α) :
    (l₁ ++ l₂).drop w = l₂ := by
  subst h
  exact dropLen l₁ l₂

/-- Canonical form of a Tablet metadata record: only the free-form `extra`
dict is reordered (Python dict equality ignores that order). -/
def TabletMetadata.canonM (m : TabletMetadata) : TabletMetadata :=
  { m with extra := canonExtra m.extra }

/-- Canonical form of a Tablet: metadata canonicalised, entries untouched. -/
def Tablet.canon (T : Tablet) : Tablet := ⟨T.metadata.canonM, T.entries⟩

/-- Canonical form of a Capsule metadata record. -/
def CapsuleMetadata.canonM (m : CapsuleMetadata) : CapsuleMetadata :=
  { m with extra := canonExtra m.extra }

/-- Canonical form of a Capsule: metadata canonicalised, sections untouched. -/
def ContextCapsule.canon (C : ContextCapsule) : ContextCapsule := ⟨C.metadata.canonM, C.sections⟩

theorem pow_256_4 : (256 : Nat) ^ 4 = 2 ^ 32 := by norm_num

theorem pow_256_8 : (256 : Nat) ^ 8 = 2 ^ 64 := by norm_num

/-- Core Tablet decode computation: a buffer assembled from the encoder's
pieces — with an arbitrary header timestamp `ms2` and arbitrary trailing
bytes `ext` — decodes to the canonicalised record carrying `ms2`. -/
theorem tablet_decode_core (now ms2 : Nat) (T : Tablet) (metaB entB ext : List Nat)
    (hms2 : ms2 < 2 ^ 64)
    (hmeta : encodeString (String.mk (Json.dumps T.metadata.to_dict)) = some metaB)
    (hcnt : T.entries.length < 2 ^ 32)
    (hent : encodeEntries T.entries = some entB) :
    Tablet.from_bytes now
      (TABLET_MAGIC ++ (packBE 2 FORMAT_VERSION ++ (packBE 8 ms2 ++ (metaB ++
        (packBE 4 T.entries.length ++ (entB ++ ext)))))) =
      .ok ⟨{ T.metadata.canonM with created_at := ms2 }, T.entries⟩ := by
  have hmag8 : TABLET_MAGIC.length = 8 := rfl
  set B := TABLET_MAGIC ++ (packBE 2 FORMAT_VERSION ++ (packBE 8 ms2 ++ (metaB ++
    (packBE 4 T.entries.length ++ (entB ++ ext))))) with hBdef
  have hB : B.length = 8 + (2 + (8 + (metaB.length + (4 + (entB.length + ext.length))))) := by
    rw [hBdef]
    simp [TABLET_MAGIC, List.length_append, packBE_length]
    omega
  have hd8 : B.drop 8 = packBE 2 FORMAT_VERSION ++ (packBE 8 ms2 ++ (metaB ++
      (packBE 4 T.entries.length ++ (entB ++ ext)))) := drop_len_eq hmag8 _
  have hd10 : B.drop 10 = packBE 8 ms2 ++ (metaB ++
      (packBE 4 T.entries.length ++ (entB ++ ext))) := by
    have := drop_len_of_drop (packBE 2 FORMAT_VERSION) hd8
    rw [packBE_length] at this
    exact this
  have hd18 : B.drop 18 = metaB ++ (packBE 4 T.entries.length ++ (entB ++ ext)) := by
    have := drop_len_of_drop (packBE 8 ms2) hd10
    rw [packBE_length] at this
    exact this
  have hdc : B.drop (18 + metaB.length) = packBE 4 T.entries.length ++ (entB ++ ext) := by
    have := drop_len_of_drop metaB hd18
    exact this
  have hdc4 : B.drop (18 + metaB.length + 4) = entB ++ ext := by
    have := drop_len_of_drop (packBE 4 T.entries.length) hdc
    rw [packBE_length] at this
    exact this
  have htake : B.take 8 = TABLET_MAGIC := take_len_eq hmag8 _
  unfold Tablet.from_bytes
  rw [if_neg (by omega), if_neg (fun hcon => hcon htake)]
  rw [readBEx_at hd8 (by decide) (by omega), exc_bind_ok, if_neg (by simp)]
  rw [readBEx_at hd10 (by rw [pow_256_8]; omega) (by omega), exc_bind_ok]
  rw [decodeString_at hmeta hd18 (by omega), exc_bind_ok]
  have hload : loadsObj (String.mk (Json.dumps T.metadata.to_dict)) =
      .ok (tabletDictCanon T.metadata) := by
    unfold loadsObj
    have h1 : (String.mk (Json.dumps T.metadata.to_dict)).data =
        Json.dumps T.metadata.to_dict := rfl
    rw [h1, jsonLoads_dumps, canonTabletDict2]
  rw [hload, exc_bind_ok]
  have hfd : fromDictT now (tabletDictCanon T.metadata) = .ok T.metadata.canonM := by
    unfold fromDictT
    rw [from_dict_tabletDictCanon]
    rfl
  rw [hfd, exc_bind_ok]
  rw [readBEx_at hdc (by rw [pow_256_4]; omega) (by omega), exc_bind_ok]
  rw [decodeEntries_at T.entries B entB ext (18 + metaB.length + 4) hent hdc4 (by omega),
    exc_map_ok]

/-- Core Capsule decode computation, the exact analogue of
`tablet_decode_core`. -/
theorem capsule_decode_core (now ms2 : Nat) (C : ContextCapsule) (metaB secB ext : List Nat)
    (hms2 : ms2 < 2 ^ 64)
    (hmeta : encodeString (String.mk (Json.dumps C.metadata.to_dict)) = some metaB)
    (hcnt : C.sections.length < 2 ^ 32)
    (hsec : encodeSections C.sections = some secB) :
    ContextCapsule.from_bytes now
      (CAPSULE_MAGIC ++ (packBE 2 FORMAT_VERSION ++ (packBE 8 ms2 ++ (metaB ++
        (packBE 4 C.sections.length ++ (secB ++ ext)))))) =
      .ok ⟨{ C.metadata.canonM with created_at := ms2 }, C.sections⟩ := by
  have hmag8 : CAPSULE_MAGIC.length = 8 := rfl
  set B := CAPSULE_MAGIC ++ (packBE 2 FORMAT_VERSION ++ (packBE 8 ms2 ++ (metaB ++
    (packBE 4 C.sections.length ++ (secB ++ ext))))) with hBdef
  have hB : B.length = 8 + (2 + (8 + (metaB.length + (4 + (secB.length + ext.length))))) := by
    rw [hBdef]
    simp [CAPSULE_MAGIC, List.length_append, packBE_length]
    omega
  have hd8 : B.drop 8 = packBE 2 FORMAT_VERSION ++ (packBE 8 ms2 ++ (metaB ++
      (packBE 4 C.sections.length ++ (secB ++ ext)))) := drop_len_eq hmag8 _
  have hd10 : B.drop 10 = packBE 8 ms2 ++ (metaB ++
      (packBE 4 C.sections.length ++ (secB ++ ext))) := by
    have := drop_len_of_drop (packBE 2 FORMAT_VERSION) hd8
    rw [packBE_length] at this
    exact this
  have hd18 : B.drop 18 = metaB ++ (packBE 4 C.sections.length ++ (secB ++ ext)) := by
    have := drop_len_of_drop (packBE 8 ms2) hd10
    rw [packBE_length] at this
    exact this
  have hdc : B.drop (18 + metaB.length) = packBE 4 C.sections.length ++ (secB ++ ext) :=
    drop_len_of_drop metaB hd18
  have hdc4 : B.drop (18 + metaB.length + 4) = secB ++ ext := by
    have := drop_len_of_drop (packBE 4 C.sections.length) hdc
    rw [packBE_length] at this
    exact this
  have htake : B.take 8 = CAPSULE_MAGIC := take_len_eq hmag8 _
  unfold ContextCapsule.from_bytes
  rw [if_neg (by omega), if_neg (fun hcon => hcon htake)]
  rw [readBEx_at hd8 (by decide) (by omega), exc_bind_ok, if_neg (by simp)]
  rw [readBEx_at hd10 (by rw [pow_256_8]; omega) (by omega), exc_bind_ok]
  rw [decodeString_at hmeta hd18 (by omega), exc_bind_ok]
  have hload : loadsObj (String.mk (Json.dumps C.metadata.to_dict)) =
      .ok (capsuleDictCanon C.metadata) := by
    unfold loadsObj
    have h1 : (String.mk (Json.dumps C.metadata.to_dict)).data =
        Json.dumps C.metadata.to_dict := rfl
    rw [h1, jsonLoads_dumps, canonCapsuleDict2]
  rw [hload, exc_bind_ok]
  have hfd : fromDictC now (capsuleDictCanon C.metadata) = .ok C.metadata.canonM := by
    unfold fromDictC
    rw [from_dict_capsuleDictCanon]
    rfl
  rw [hfd, exc_bind_ok]
  rw [readBEx_at hdc (by rw [pow_256_4]; omega) (by omega), exc_bind_ok]
  rw [decodeSections_at C.sections B secB ext (18 + metaB.length + 4) hsec hdc4 (by omega),
    exc_map_ok]

set_option maxHeartbeats 2000000 in
theorem tablet_to_bytes_inv (T : Tablet) (B : List Nat) (h : T.to_bytes = some B) :
    ∃ metaB entB, T.metadata.created_at < 2 ^ 64 ∧
      encodeString (String.mk (Json.dumps T.metadata.to_dict)) = some metaB ∧
      T.entries.length < 2 ^ 32 ∧ encodeEntries T.entries = some entB ∧
      ∀ ext, B ++ ext = TABLET_MAGIC ++ (packBE 2 FORMAT_VERSION ++
        (packBE 8 T.metadata.created_at ++ (metaB ++
          (packBE 4 T.entries.length ++ (entB ++ ext))))) := by
  unfold Tablet.to_bytes at h
  by_cases hms : T.metadata.created_at < 2 ^ 64
  · rw [if_pos hms] at h
    generalize hmeta : encodeString (String.mk (Json.dumps T.metadata.to_dict)) = mB at h
    rcases mB with _ | metaB
    · exact Option.noConfusion (show (none : Option (List Nat)) = some B from h)
    rw [Option.some_bind] at h
    by_cases hcnt : T.entries.length < 2 ^ 32
    · rw [if_pos hcnt] at h
      rcases hent : encodeEntries T.entries with _ | entB
      · rw [hent] at h; cases h
      rw [hent] at h
      have h2 : some (TABLET_MAGIC ++ packBE 2 FORMAT_VERSION ++
          packBE 8 T.metadata.created_at ++ metaB ++ packBE 4 T.entries.length ++ entB) =
          some B := h
      obtain rfl := (Option.some.injEq _ _).mp h2
      refine ⟨metaB, entB, hms, rfl, hcnt, rfl, fun ext => ?_⟩
      simp [List.append_assoc]
    · rw [if_neg hcnt] at h; cases h
  · rw [if_neg hms] at h
    cases h

set_option maxHeartbeats 2000000 in
theorem capsule_to_bytes_inv (C : ContextCapsule) (B : List Nat) (h : C.to_bytes = some B) :
    ∃ metaB secB, C.metadata.created_at < 2 ^ 64 ∧
      encodeString (String.mk (Json.dumps C.metadata.to_dict)) = some metaB ∧
      C.sections.length < 2 ^ 32 ∧ encodeSections C.sections = some secB ∧
      ∀ ext, B ++ ext = CAPSULE_MAGIC ++ (packBE 2 FORMAT_VERSION ++
        (packBE 8 C.metadata.created_at ++ (metaB ++
          (packBE 4 C.sections.length ++ (secB ++ ext))))) := by
  unfold ContextCapsule.to_bytes at h
  by_cases hms : C.metadata.created_at < 2 ^ 64
  · rw [if_pos hms] at h
    generalize hmeta : encodeString (String.mk (Json.dumps C.metadata.to_dict)) = mB at h
    rcases mB with _ | metaB
    · exact Option.noConfusion (show (none : Option (List Nat)) = some B from h)
    rw [Option.some_bind] at h
    by_cases hcnt : C.sections.length < 2 ^ 32
    · rw [if_pos hcnt] at h
      rcases hsec : encodeSections C.sections with _ | secB
      · rw [hsec] at h; cases h
      rw [hsec] at h
      have h2 : some (CAPSULE_MAGIC ++ packBE 2 FORMAT_VERSION ++
          packBE 8 C.metadata.created_at ++ metaB ++ packBE 4 C.sections.length ++ secB) =
          some B := h
      obtain rfl := (Option.some.injEq _ _).mp h2
      refine ⟨metaB, secB, hms, rfl, hcnt, rfl, fun ext => ?_⟩
      simp [List.append_assoc]
    · rw [if_neg hcnt] at h; cases h
  · rw [if_neg hms] at h
    cases h

/-! ## Claim theorems -/

/-- A minimal Capsule metadata record for concrete instances. -/
def emptyCapsuleMeta : CapsuleMetadata :=
  { project := "p", summary := "", author := none, created_at := 0, branch := none,
    revision := none, extra := .nil }

/-- A minimal Tablet metadata record for concrete instances. -/
def emptyTabletMeta : TabletMetadata :=
  { title := "t", summary := "", author := none, created_at := 0, tags := [],
    revision := none, extra := .nil }

/-- C2, the claim as stated is false on the code: on a Capsule holding two
sections named "a", `get_section` returns the first, not the last. -/
theorem C2_counterexample :
    (ContextCapsule.get_section
      ⟨emptyCapsuleMeta,
        [⟨"a", .TEXT, [1]⟩, ⟨"a", .TEXT, [2]⟩]⟩ "a") =
        some ⟨"a", .TEXT, [1]⟩ ∧
    (⟨"a", .TEXT, [1]⟩ : CapsuleSection) ≠ ⟨"a", .TEXT, [2]⟩ := by
  constructor
  · rfl
  · decide

/-- C2 (amended): `get_section` returns the FIRST section with the given
name: with any sections before it not named `n` and any sections after it
(which may also be named `n`), the section returned is the earliest
match. -/
theorem C2_get_section_first (meta : CapsuleMetadata) (pre suf : List CapsuleSection)
    (s : CapsuleSection) (n : String) (hpre : ∀ x ∈ pre, x.name ≠ n) (hs : s.name = n) :
    ContextCapsule.get_section ⟨meta, pre ++ s :: suf⟩ n = some s := by
  unfold ContextCapsule.get_section
  induction pre with
  | nil =>
    show getSectionL (s :: suf) n = some s
    unfold getSectionL
    rw [if_pos hs]
  | cons x pre ih =>
    show getSectionL (x :: (pre ++ s :: suf)) n = some s
    unfold getSectionL
    rw [if_neg (hpre x (by simp))]
    exact ih (fun y hy => hpre y (by simp [hy]))

/-- Witness for C2's amended theorem at a concrete capsule. -/
theorem C2_get_section_first_witness :
    ContextCapsule.get_section
      ⟨emptyCapsuleMeta, [⟨"b", .TEXT, [0]⟩] ++ ⟨"a", .TEXT, [1]⟩ :: [⟨"a", .TEXT, [2]⟩]⟩ "a" =
      some ⟨"a", .TEXT, [1]⟩ :=
  C2_get_section_first emptyCapsuleMeta [⟨"b", .TEXT, [0]⟩] [⟨"a", .TEXT, [2]⟩]
    ⟨"a", .TEXT, [1]⟩ "a" (by decide) rfl

/-- C3, the claim as stated is false on the code: an unrecognized top-level
metadata key ("zzz" here) is silently dropped by `from_dict`, not preserved
in the `extra` map (decode still succeeds, with empty `extra`). -/
theorem C3_counterexample :
    (TabletMetadata.from_dict 0 (.kcons "zzz" (.str "v") .nil)).map (fun m => m.extra) =
      some .nil ∧
    (JsonKvs.kcons "zzz" (.str "v") .nil).find "zzz" = some (.str "v") := ⟨rfl, rfl⟩

theorem find_cons_ne {k key : String} (v : Json) (d : JsonKvs) (h : k ≠ key) :
    (JsonKvs.kcons k v d).find key = d.find key := by
  show (if k = key then some v else d.find key) = d.find key
  rw [if_neg h]

/-- C3 (amended): what the code actually preserves.  (1)/(2): the contents
of the "extra" sub-object are carried verbatim into the decoded record's
`extra` map, for both metadata kinds.  (3)/(4): an unrecognized top-level
key never causes an error and never influences the result — it is silently
dropped, not preserved. -/
theorem C3_extra_preserved :
    (∀ (now : Nat) (d e : JsonKvs) (m : TabletMetadata), d.find "extra" = some (.obj e) →
      TabletMetadata.from_dict now d = some m → m.extra = e) ∧
    (∀ (now : Nat) (d e : JsonKvs) (m : CapsuleMetadata), d.find "extra" = some (.obj e) →
      CapsuleMetadata.from_dict now d = some m → m.extra = e) ∧
    (∀ (now : Nat) (k : String) (v : Json) (d : JsonKvs),
      k ≠ "title" → k ≠ "summary" → k ≠ "author" → k ≠ "created_at" → k ≠ "tags" →
      k ≠ "revision" → k ≠ "extra" →
      TabletMetadata.from_dict now (.kcons k v d) = TabletMetadata.from_dict now d) ∧
    (∀ (now : Nat) (k : String) (v : Json) (d : JsonKvs),
      k ≠ "project" → k ≠ "summary" → k ≠ "author" → k ≠ "created_at" → k ≠ "branch" →
      k ≠ "revision" → k ≠ "extra" →
      CapsuleMetadata.from_dict now (.kcons k v d) = CapsuleMetadata.from_dict now d) := by
  refine ⟨?_, ?_, ?_, ?_⟩
  · intro now d e m hx hm
    unfold TabletMetadata.from_dict at hm
    have hge : getExtra d "extra" = some e := by unfold getExtra; rw [hx]
    rw [hge] at hm
    rcases h1 : getCreated now d with _ | c1 <;> rw [h1] at hm
    · rw [Option.none_bind] at hm; cases hm
    rw [Option.some_bind] at hm
    rcases h2 : getStrD d "title" "Untitled Tablet" with _ | t1 <;> rw [h2] at hm
    · rw [Option.none_bind] at hm; cases hm
    rw [Option.some_bind] at hm
    rcases h3 : getStrD d "summary" "" with _ | s1 <;> rw [h3] at hm
    · rw [Option.none_bind] at hm; cases hm
    rw [Option.some_bind] at hm
    rcases h4 : getOptStr d "author" with _ | a1 <;> rw [h4] at hm
    · rw [Option.none_bind] at hm; cases hm
    rw [Option.some_bind] at hm
    rcases h5 : getTags d "tags" with _ | g1 <;> rw [h5] at hm
    · rw [Option.none_bind] at hm; cases hm
    rw [Option.some_bind] at hm
    rcases h6 : getOptStr d "revision" with _ | r1 <;> rw [h6] at hm
    · rw [Option.none_bind] at hm; cases hm
    rw [Option.some_bind] at hm
    have hm2 : some (TabletMetadata.mk t1 s1 a1 c1 g1 r1 e) = some m := hm
    obtain rfl : _ = m := (Option.some.injEq _ _).mp hm2
    rfl
  · intro now d e m hx hm
    unfold CapsuleMetadata.from_dict at hm
    have hge : getExtra d "extra" = some e := by unfold getExtra; rw [hx]
    rw [hge] at hm
    rcases h1 : getCreated now d with _ | c1 <;> rw [h1] at hm
    · rw [Option.none_bind] at hm; cases hm
    rw [Option.some_bind] at hm
    rcases h2 : getStrD d "project" "Unnamed Project" with _ | t1 <;> rw [h2] at hm
    · rw [Option.none_bind] at hm; cases hm
    rw [Option.some_bind] at hm
    rcases h3 : getStrD d "summary" "" with _ | s1 <;> rw [h3] at hm
    · rw [Option.none_bind] at hm; cases hm
    rw [Option.some_bind] at hm
    rcases h4 : getOptStr d "author" with _ | a1 <;> rw [h4] at hm
    · rw [Option.none_bind] at hm; cases hm
    rw [Option.some_bind] at hm
    rcases h5 : getOptStr d "branch" with _ | b1 <;> rw [h5] at hm
    · rw [Option.none_bind] at hm; cases hm
    rw [Option.some_bind] at hm
    rcases h6 : getOptStr d "revision" with _ | r1 <;> rw [h6] at hm
    · rw [Option.none_bind] at hm; cases hm
    rw [Option.some_bind] at hm
    have hm2 : some (CapsuleMetadata.mk t1 s1 a1 c1 b1 r1 e) = some m := hm
    obtain rfl : _ = m := (Option.some.injEq _ _).mp hm2
    rfl
  · intro now k v d h1 h2 h3 h4 h5 h6 h7
    unfold TabletMetadata.from_dict
    rw [show getCreated now (.kcons k v d) = getCreated now d from by
        unfold getCreated; rw [find_cons_ne v d h4],
      show getStrD (.kcons k v d) "title" "Untitled Tablet" =
          getStrD d "title" "Untitled Tablet" from by
        unfold getStrD; rw [find_cons_ne v d h1],
      show getStrD (.kcons k v d) "summary" "" = getStrD d "summary" "" from by
        unfold getStrD; rw [find_cons_ne v d h2],
      show getOptStr (.kcons k v d) "author" = getOptStr d "author" from by
        unfold getOptStr; rw [find_cons_ne v d h3],
      show getTags (.kcons k v d) "tags" = getTags d "tags" from by
        unfold getTags; rw [find_cons_ne v d h5],
      show getOptStr (.kcons k v d) "revision" = getOptStr d "revision" from by
        unfold getOptStr; rw [find_cons_ne v d h6],
      show getExtra (.kcons k v d) "extra" = getExtra d "extra" from by
        unfold getExtra; rw [find_cons_ne v d h7]]
  · intro now k v d h1 h2 h3 h4 h5 h6 h7
    unfold CapsuleMetadata.from_dict
    rw [show getCreated now (.kcons k v d) = getCreated now d from by
        unfold getCreated; rw [find_cons_ne v d h4],
      show getStrD (.kcons k v d) "project" "Unnamed Project" =
          getStrD d "project" "Unnamed Project" from by
        unfold getStrD; rw [find_cons_ne v d h1],
      show getStrD (.kcons k v d) "summary" "" = getStrD d "summary" "" from by
        unfold getStrD; rw [find_cons_ne v d h2],
      show getOptStr (.kcons k v d) "author" = getOptStr d "author" from by
        unfold getOptStr; rw [find_cons_ne v d h3],
      show getOptStr (.kcons k v d) "branch" = getOptStr d "branch" from by
        unfold getOptStr; rw [find_cons_ne v d h5],
      show getOptStr (.kcons k v d) "revision" = getOptStr d "revision" from by
        unfold getOptStr; rw [find_cons_ne v d h6],
      show getExtra (.kcons k v d) "extra" = getExtra d "extra" from by
        unfold getExtra; rw [find_cons_ne v d h7]]

/-- Witness for C3's amended theorem: a dict whose "extra" object holds one
key survives decoding with that key intact. -/
theorem C3_extra_preserved_witness :
    (TabletMetadata.mk "Untitled Tablet" "" none 0 [] none
      (JsonKvs.kcons "k" (.str "v") .nil)).extra = JsonKvs.kcons "k" (.str "v") .nil :=
  C3_extra_preserved.1 0 (.kcons "extra" (.obj (.kcons "k" (.str "v") .nil)) .nil)
    (.kcons "k" (.str "v") .nil) _ rfl rfl

/-- C5: magic gating.  Any buffer whose first 8 bytes are the Tablet magic
fails the Capsule decoder with `BadMagic` — and nothing else — and
symmetrically for the Capsule magic against the Tablet decoder. -/
theorem C5_magic_gating (B : List Nat) (now : Nat) :
    (B.take 8 = TABLET_MAGIC → ContextCapsule.from_bytes now B = .error .BadMagic) ∧
    (B.take 8 = CAPSULE_MAGIC → Tablet.from_bytes now B = .error .BadMagic) := by
  constructor
  · intro h
    have hlen : 8 ≤ B.length := by
      have h1 := congrArg List.length h
      rw [List.length_take] at h1
      have h8 : TABLET_MAGIC.length = 8 := rfl
      rw [h8] at h1
      have h2 := inf_le_left (a := (8 : Nat)) (b := B.length)
      omega
    unfold ContextCapsule.from_bytes
    rw [if_neg (by omega), if_pos (by rw [h]; decide)]
  · intro h
    have hlen : 8 ≤ B.length := by
      have h1 := congrArg List.length h
      rw [List.length_take] at h1
      have h8 : CAPSULE_MAGIC.length = 8 := rfl
      rw [h8] at h1
      have h2 := inf_le_left (a := (8 : Nat)) (b := B.length)
      omega
    unfold Tablet.from_bytes
    rw [if_neg (by omega), if_pos (by rw [h]; decide)]

/-- Witness for C5 at the 8-byte buffers that are exactly the magics. -/
theorem C5_magic_gating_witness :
    ContextCapsule.from_bytes 0 TABLET_MAGIC = .error .BadMagic ∧
    Tablet.from_bytes 0 CAPSULE_MAGIC = .error .BadMagic :=
  ⟨(C5_magic_gating TABLET_MAGIC 0).1 (by decide),
   (C5_magic_gating CAPSULE_MAGIC 0).2 (by decide)⟩

/-- C6: version gate.  A buffer identical to a valid encoding except that
its uint16 version field holds `v ≠ 1` fails with `UnsupportedVersion` —
not `BadMagic` — for both formats. -/
theorem C6_version_gate (now v : Nat) (hv16 : v < 2 ^ 16) (hv : v ≠ 1) :
    (∀ (T : Tablet) (B : List Nat), T.to_bytes = some B →
      Tablet.from_bytes now (B.take 8 ++ (packBE 2 v ++ B.drop 10)) =
        .error .UnsupportedVersion) ∧
    (∀ (C : ContextCapsule) (B : List Nat), C.to_bytes = some B →
      ContextCapsule.from_bytes now (B.take 8 ++ (packBE 2 v ++ B.drop 10)) =
        .error .UnsupportedVersion) := by
  have hv2 : v < 256 ^ 2 := by
    have h1 : (256 : Nat) ^ 2 = 2 ^ 16 := by norm_num
    rw [h1]; exact hv16
  constructor
  · intro T B hB
    have hmag8 : TABLET_MAGIC.length = 8 := rfl
    obtain ⟨metaB, entB, hms, hmeta, hcnt, hent, hshape⟩ := tablet_to_bytes_inv T B hB
    have hBeq : B = TABLET_MAGIC ++ (packBE 2 FORMAT_VERSION ++
        (packBE 8 T.metadata.created_at ++ (metaB ++
          (packBE 4 T.entries.length ++ (entB ++ []))))) := by
      have h0 := hshape []
      rwa [List.append_nil] at h0
    have htake : B.take 8 = TABLET_MAGIC := by
      rw [hBeq]; exact take_len_eq hmag8 _
    have hd8 : B.drop 8 = packBE 2 FORMAT_VERSION ++
        (packBE 8 T.metadata.created_at ++
          (metaB ++ (packBE 4 T.entries.length ++ (entB ++ [])))) := by
      rw [hBeq]; exact drop_len_eq hmag8 _
    have hd10 : B.drop 10 = packBE 8 T.metadata.created_at ++
        (metaB ++ (packBE 4 T.entries.length ++ (entB ++ []))) := by
      have h0 := drop_len_of_drop (packBE 2 FORMAT_VERSION) hd8
      rw [packBE_length] at h0
      exact h0
    rw [htake, hd10]
    set B2 := TABLET_MAGIC ++ (packBE 2 v ++ (packBE 8 T.metadata.created_at ++
      (metaB ++ (packBE 4 T.entries.length ++ (entB ++ []))))) with hB2
    have hlen2 : 10 ≤ B2.length := by
      rw [hB2]
      simp only [List.length_append, packBE_length]
      rw [show TABLET_MAGIC.length = 8 from rfl]
      omega
    have htake2 : B2.take 8 = TABLET_MAGIC := by
      rw [hB2]; exact take_len_eq hmag8 _
    have hd8b : B2.drop 8 = packBE 2 v ++ (packBE 8 T.metadata.created_at ++
        (metaB ++ (packBE 4 T.entries.length ++ (entB ++ [])))) := by
      rw [hB2]; exact drop_len_eq hmag8 _
    unfold Tablet.from_bytes
    rw [if_neg (by omega), if_neg (fun hcon => hcon htake2),
      readBEx_at hd8b hv2 (by omega), exc_bind_ok,
      if_pos (show v ≠ FORMAT_VERSION from hv)]
  · intro C B hB
    have hmagC : CAPSULE_MAGIC.length = 8 := rfl
    obtain ⟨metaB, secB, hms, hmeta, hcnt, hsec, hshape⟩ := capsule_to_bytes_inv C B hB
    have hBeq : B = CAPSULE_MAGIC ++ (packBE 2 FORMAT_VERSION ++
        (packBE 8 C.metadata.created_at ++ (metaB ++
          (packBE 4 C.sections.length ++ (secB ++ []))))) := by
      have h0 := hshape []
      rwa [List.append_nil] at h0
    have htake : B.take 8 = CAPSULE_MAGIC := by
      rw [hBeq]; exact take_len_eq hmagC _
    have hd8 : B.drop 8 = packBE 2 FORMAT_VERSION ++
        (packBE 8 C.metadata.created_at ++
          (metaB ++ (packBE 4 C.sections.length ++ (secB ++ [])))) := by
      rw [hBeq]; exact drop_len_eq hmagC _
    have hd10 : B.drop 10 = packBE 8 C.metadata.created_at ++
        (metaB ++ (packBE 4 C.sections.length ++ (secB ++ []))) := by
      have h0 := drop_len_of_drop (packBE 2 FORMAT_VERSION) hd8
      rw [packBE_length] at h0
      exact h0
    rw [htake, hd10]
    set B2 := CAPSULE_MAGIC ++ (packBE 2 v ++ (packBE 8 C.metadata.created_at ++
      (metaB ++ (packBE 4 C.sections.length ++ (secB ++ []))))) with hB2
    have hlen2 : 10 ≤ B2.length := by
      rw [hB2]
      simp only [List.length_append, packBE_length]
      rw [show CAPSULE_MAGIC.length = 8 from rfl]
      omega
    have htake2 : B2.take 8 = CAPSULE_MAGIC := by
      rw [hB2]; exact take_len_eq hmagC _
    have hd8b : B2.drop 8 = packBE 2 v ++ (packBE 8 C.metadata.created_at ++
        (metaB ++ (packBE 4 C.sections.length ++ (secB ++ [])))) := by
      rw [hB2]; exact drop_len_eq hmagC _
    unfold ContextCapsule.from_bytes
    rw [if_neg (by omega), if_neg (fun hcon => hcon htake2),
      readBEx_at hd8b hv2 (by omega), exc_bind_ok,
      if_pos (show v ≠ FORMAT_VERSION from hv)]

/-- Witness for C6 at version value 2 on a concrete one-entry tablet and a
concrete empty capsule. -/
theorem C6_version_gate_witness :
    ((2 : Nat) < 2 ^ 16 ∧ (2 : Nat) ≠ 1) ∧
    (Tablet.mk emptyTabletMeta []).to_bytes =
      some ((Tablet.mk emptyTabletMeta []).to_bytes.getD []) ∧
    (ContextCapsule.mk emptyCapsuleMeta []).to_bytes =
      some ((ContextCapsule.mk emptyCapsuleMeta []).to_bytes.getD []) ∧
    Tablet.from_bytes 7
        (((Tablet.mk emptyTabletMeta []).to_bytes.getD []).take 8 ++
          (packBE 2 2 ++ ((Tablet.mk emptyTabletMeta []).to_bytes.getD []).drop 10)) =
      .error .UnsupportedVersion ∧
    ContextCapsule.from_bytes 7
        (((ContextCapsule.mk emptyCapsuleMeta []).to_bytes.getD []).take 8 ++
          (packBE 2 2 ++
            ((ContextCapsule.mk emptyCapsuleMeta []).to_bytes.getD []).drop 10)) =
      .error .UnsupportedVersion :=
  ⟨⟨by decide, by decide⟩, rfl, rfl,
   (C6_version_gate 7 2 (by decide) (by decide)).1 (Tablet.mk emptyTabletMeta []) _ rfl,
   (C6_version_gate 7 2 (by decide) (by decide)).2 (ContextCapsule.mk emptyCapsuleMeta []) _
     rfl⟩

/-- C1: round trip.  Decoding a valid encoding yields the original record's
canonical form: entry/section order and every metadata field are preserved
exactly, except that the free-form `extra` object is returned with its keys
in the serializer's sorted order (`canonExtra`); whenever `extra` is already
canonical the decoded record equals the original field for field (the
timestamp is epoch milliseconds in the model, so millisecond truncation is
the identity). -/
theorem C1_roundtrip (now : Nat) :
    (∀ (T : Tablet) (B : List Nat), T.to_bytes = some B →
        Tablet.from_bytes now B = .ok T.canon) ∧
    (∀ (C : ContextCapsule) (B : List Nat), C.to_bytes = some B →
        ContextCapsule.from_bytes now B = .ok C.canon) ∧
    (∀ T : Tablet, canonExtra T.metadata.extra = T.metadata.extra → T.canon = T) ∧
    (∀ C : ContextCapsule, canonExtra C.metadata.extra = C.metadata.extra → C.canon = C) := by
  refine ⟨?_, ?_, ?_, ?_⟩
  · intro T B hB
    obtain ⟨metaB, entB, hms, hmeta, hcnt, hent, hshape⟩ := tablet_to_bytes_inv T B hB
    have hBeq : B = TABLET_MAGIC ++ (packBE 2 FORMAT_VERSION ++
        (packBE 8 T.metadata.created_at ++ (metaB ++
          (packBE 4 T.entries.length ++ (entB ++ []))))) := by
      have h0 := hshape []
      rwa [List.append_nil] at h0
    rw [hBeq]
    exact tablet_decode_core now T.metadata.created_at T metaB entB [] hms hmeta hcnt hent
  · intro C B hB
    obtain ⟨metaB, secB, hms, hmeta, hcnt, hsec, hshape⟩ := capsule_to_bytes_inv C B hB
    have hBeq : B = CAPSULE_MAGIC ++ (packBE 2 FORMAT_VERSION ++
        (packBE 8 C.metadata.created_at ++ (metaB ++
          (packBE 4 C.sections.length ++ (secB ++ []))))) := by
      have h0 := hshape []
      rwa [List.append_nil] at h0
    rw [hBeq]
    exact capsule_decode_core now C.metadata.created_at C metaB secB [] hms hmeta hcnt hsec
  · intro T h
    show Tablet.mk (TabletMetadata.mk T.metadata.title T.metadata.summary
      T.metadata.author T.metadata.created_at T.metadata.tags T.metadata.revision
      (canonExtra T.metadata.extra)) T.entries = T
    rw [h]
  · intro C h
    show ContextCapsule.mk (CapsuleMetadata.mk C.metadata.project C.metadata.summary
      C.metadata.author C.metadata.created_at C.metadata.branch C.metadata.revision
      (canonExtra C.metadata.extra)) C.sections = C
    rw [h]

/-- Witness for C1 on a concrete one-entry Tablet and a concrete one-section
Capsule. -/
theorem C1_roundtrip_witness :
    (Tablet.mk emptyTabletMeta [⟨"p", "d", "n"⟩]).to_bytes =
      some ((Tablet.mk emptyTabletMeta [⟨"p", "d", "n"⟩]).to_bytes.getD []) ∧
    Tablet.from_bytes 7 ((Tablet.mk emptyTabletMeta [⟨"p", "d", "n"⟩]).to_bytes.getD []) =
      .ok (Tablet.mk emptyTabletMeta [⟨"p", "d", "n"⟩]).canon ∧
    (ContextCapsule.mk emptyCapsuleMeta [⟨"s", .TEXT, [1, 2]⟩]).to_bytes =
      some ((ContextCapsule.mk emptyCapsuleMeta [⟨"s", .TEXT, [1, 2]⟩]).to_bytes.getD []) ∧
    ContextCapsule.from_bytes 7
        ((ContextCapsule.mk emptyCapsuleMeta [⟨"s", .TEXT, [1, 2]⟩]).to_bytes.getD []) =
      .ok (ContextCapsule.mk emptyCapsuleMeta [⟨"s", .TEXT, [1, 2]⟩]).canon ∧
    (Tablet.mk emptyTabletMeta [⟨"p", "d", "n"⟩]).canon =
      Tablet.mk emptyTabletMeta [⟨"p", "d", "n"⟩] ∧
    (ContextCapsule.mk emptyCapsuleMeta [⟨"s", .TEXT, [1, 2]⟩]).canon =
      ContextCapsule.mk emptyCapsuleMeta [⟨"s", .TEXT, [1, 2]⟩] :=
  ⟨rfl,
   (C1_roundtrip 7).1 _ _ rfl,
   rfl,
   (C1_roundtrip 7).2.1 _ _ rfl,
   (C1_roundtrip 7).2.2.1 _ rfl,
   (C1_roundtrip 7).2.2.2 _ rfl⟩

/-- C8: header timestamp overrides the JSON blob.  Replacing the uint64
timestamp field (bytes 10–18) of a valid encoding by any `ms2` makes decode
return `created_at = ms2`, even though the metadata JSON blob still carries
the original record's `created_at` string. -/
theorem C8_header_timestamp_overrides (now ms2 : Nat) (hms2 : ms2 < 2 ^ 64) :
    (∀ (T : Tablet) (B : List Nat), T.to_bytes = some B →
      Tablet.from_bytes now (B.take 10 ++ (packBE 8 ms2 ++ B.drop 18)) =
        .ok ⟨{ T.metadata.canonM with created_at := ms2 }, T.entries⟩) ∧
    (∀ (C : ContextCapsule) (B : List Nat), C.to_bytes = some B →
      ContextCapsule.from_bytes now (B.take 10 ++ (packBE 8 ms2 ++ B.drop 18)) =
        .ok ⟨{ C.metadata.canonM with created_at := ms2 }, C.sections⟩) := by
  constructor
  · intro T B hB
    have hmag8 : TABLET_MAGIC.length = 8 := rfl
    have h10 : (TABLET_MAGIC ++ packBE 2 FORMAT_VERSION).length = 10 := rfl
    obtain ⟨metaB, entB, hms, hmeta, hcnt, hent, hshape⟩ := tablet_to_bytes_inv T B hB
    have hBeq : B = TABLET_MAGIC ++ (packBE 2 FORMAT_VERSION ++
        (packBE 8 T.metadata.created_at ++ (metaB ++
          (packBE 4 T.entries.length ++ (entB ++ []))))) := by
      have h0 := hshape []
      rwa [List.append_nil] at h0
    have htake10 : B.take 10 = TABLET_MAGIC ++ packBE 2 FORMAT_VERSION := by
      rw [hBeq, ← List.append_assoc]
      exact take_len_eq h10 _
    have hd8 : B.drop 8 = packBE 2 FORMAT_VERSION ++
        (packBE 8 T.metadata.created_at ++
          (metaB ++ (packBE 4 T.entries.length ++ (entB ++ [])))) := by
      rw [hBeq]; exact drop_len_eq hmag8 _
    have hd10 : B.drop 10 = packBE 8 T.metadata.created_at ++
        (metaB ++ (packBE 4 T.entries.length ++ (entB ++ []))) := by
      have h0 := drop_len_of_drop (packBE 2 FORMAT_VERSION) hd8
      rw [packBE_length] at h0
      exact h0
    have hd18 : B.drop 18 = metaB ++ (packBE 4 T.entries.length ++ (entB ++ [])) := by
      have h0 := drop_len_of_drop (packBE 8 T.metadata.created_at) hd10
      rw [packBE_length] at h0
      exact h0
    rw [htake10, hd18, List.append_assoc]
    exact tablet_decode_core now ms2 T metaB entB [] hms2 hmeta hcnt hent
  · intro C B hB
    have hmag8 : CAPSULE_MAGIC.length = 8 := rfl
    have h10 : (CAPSULE_MAGIC ++ packBE 2 FORMAT_VERSION).length = 10 := rfl
    obtain ⟨metaB, secB, hms, hmeta, hcnt, hsec, hshape⟩ := capsule_to_bytes_inv C B hB
    have hBeq : B = CAPSULE_MAGIC ++ (packBE 2 FORMAT_VERSION ++
        (packBE 8 C.metadata.created_at ++ (metaB ++
          (packBE 4 C.sections.length ++ (secB ++ []))))) := by
      have h0 := hshape []
      rwa [List.append_nil] at h0
    have htake10 : B.take 10 = CAPSULE_MAGIC ++ packBE 2 FORMAT_VERSION := by
      rw [hBeq, ← List.append_assoc]
      exact take_len_eq h10 _
    have hd8 : B.drop 8 = packBE 2 FORMAT_VERSION ++
        (packBE 8 C.metadata.created_at ++
          (metaB ++ (packBE 4 C.sections.length ++ (secB ++ [])))) := by
      rw [hBeq]; exact drop_len_eq hmag8 _
    have hd10 : B.drop 10 = packBE 8 C.metadata.created_at ++
        (metaB ++ (packBE 4 C.sections.length ++ (secB ++ []))) := by
      have h0 := drop_len_of_drop (packBE 2 FORMAT_VERSION) hd8
      rw [packBE_length] at h0
      exact h0
    have hd18 : B.drop 18 = metaB ++ (packBE 4 C.sections.length ++ (secB ++ [])) := by
      have h0 := drop_len_of_drop (packBE 8 C.metadata.created_at) hd10
      rw [packBE_length] at h0
      exact h0
    rw [htake10, hd18, List.append_assoc]
    exact capsule_decode_core now ms2 C metaB secB [] hms2 hmeta hcnt hsec

/-- Witness for C8: splicing timestamp 123 into concrete encodings decodes
with `created_at = 123` for both formats. -/
theorem C8_header_timestamp_overrides_witness :
    ((123 : Nat) < 2 ^ 64) ∧
    (Tablet.mk emptyTabletMeta []).to_bytes =
      some ((Tablet.mk emptyTabletMeta []).to_bytes.getD []) ∧
    (ContextCapsule.mk emptyCapsuleMeta []).to_bytes =
      some ((ContextCapsule.mk emptyCapsuleMeta []).to_bytes.getD []) ∧
    Tablet.from_bytes 7
        (((Tablet.mk emptyTabletMeta []).to_bytes.getD []).take 10 ++
          (packBE 8 123 ++ ((Tablet.mk emptyTabletMeta []).to_bytes.getD []).drop 18)) =
      .ok (Tablet.mk (TabletMetadata.mk "t" "" none 123 [] none .nil) []) ∧
    ContextCapsule.from_bytes 7
        (((ContextCapsule.mk emptyCapsuleMeta []).to_bytes.getD []).take 10 ++
          (packBE 8 123 ++
            ((ContextCapsule.mk emptyCapsuleMeta []).to_bytes.getD []).drop 18)) =
      .ok (ContextCapsule.mk (CapsuleMetadata.mk "p" "" none 123 none none .nil) []) :=
  ⟨by decide, rfl, rfl,
   (C8_header_timestamp_overrides 7 123 (by decide)).1 (Tablet.mk emptyTabletMeta []) _ rfl,
   (C8_header_timestamp_overrides 7 123 (by decide)).2 (ContextCapsule.mk emptyCapsuleMeta [])
     _ rfl⟩

/-- C10: trailing bytes are tolerated and ignored.  Appending any suffix to
a valid encoding leaves the decode result unchanged (still the canonical
original record): decode stops after the declared entry/section count. -/
theorem C10_trailing_bytes (now : Nat) :
    (∀ (T : Tablet) (B s : List Nat), T.to_bytes = some B →
      Tablet.from_bytes now (B ++ s) = Tablet.from_bytes now B ∧
      Tablet.from_bytes now (B ++ s) = .ok T.canon) ∧
    (∀ (C : ContextCapsule) (B s : List Nat), C.to_bytes = some B →
      ContextCapsule.from_bytes now (B ++ s) = ContextCapsule.from_bytes now B ∧
      ContextCapsule.from_bytes now (B ++ s) = .ok C.canon) := by
  constructor
  · intro T B s hB
    obtain ⟨metaB, entB, hms, hmeta, hcnt, hent, hshape⟩ := tablet_to_bytes_inv T B hB
    have hBeq : B = TABLET_MAGIC ++ (packBE 2 FORMAT_VERSION ++
        (packBE 8 T.metadata.created_at ++ (metaB ++
          (packBE 4 T.entries.length ++ (entB ++ []))))) := by
      have h0 := hshape []
      rwa [List.append_nil] at h0
    have hsuf : Tablet.from_bytes now (B ++ s) = .ok T.canon := by
      rw [hshape s]
      exact tablet_decode_core now T.metadata.created_at T metaB entB s hms hmeta hcnt hent
    have hplain : Tablet.from_bytes now B = .ok T.canon := by
      rw [hBeq]
      exact tablet_decode_core now T.metadata.created_at T metaB entB [] hms hmeta hcnt hent
    exact ⟨hsuf.trans hplain.symm, hsuf⟩
  · intro C B s hB
    obtain ⟨metaB, secB, hms, hmeta, hcnt, hsec, hshape⟩ := capsule_to_bytes_inv C B hB
    have hBeq : B = CAPSULE_MAGIC ++ (packBE 2 FORMAT_VERSION ++
        (packBE 8 C.metadata.created_at ++ (metaB ++
          (packBE 4 C.sections.length ++ (secB ++ []))))) := by
      have h0 := hshape []
      rwa [List.append_nil] at h0
    have hsuf : ContextCapsule.from_bytes now (B ++ s) = .ok C.canon := by
      rw [hshape s]
      exact capsule_decode_core now C.metadata.created_at C metaB secB s hms hmeta hcnt hsec
    have hplain : ContextCapsule.from_bytes now B = .ok C.canon := by
      rw [hBeq]
      exact capsule_decode_core now C.metadata.created_at C metaB secB [] hms hmeta hcnt hsec
    exact ⟨hsuf.trans hplain.symm, hsuf⟩

/-- Witness for C10 with the non-empty suffix `[255, 0, 7]` on concrete
records. -/
theorem C10_trailing_bytes_witness :
    (Tablet.mk emptyTabletMeta []).to_bytes =
      some ((Tablet.mk emptyTabletMeta []).to_bytes.getD []) ∧
    (ContextCapsule.mk emptyCapsuleMeta []).to_bytes =
      some ((ContextCapsule.mk emptyCapsuleMeta []).to_bytes.getD []) ∧
    (Tablet.from_bytes 7 ((Tablet.mk emptyTabletMeta []).to_bytes.getD [] ++ [255, 0, 7]) =
        Tablet.from_bytes 7 ((Tablet.mk emptyTabletMeta []).to_bytes.getD []) ∧
      Tablet.from_bytes 7 ((Tablet.mk emptyTabletMeta []).to_bytes.getD [] ++ [255, 0, 7]) =
        .ok (Tablet.mk emptyTabletMeta []).canon) ∧
    (ContextCapsule.from_bytes 7
          ((ContextCapsule.mk emptyCapsuleMeta []).to_bytes.getD [] ++ [255, 0, 7]) =
        ContextCapsule.from_bytes 7
          ((ContextCapsule.mk emptyCapsuleMeta []).to_bytes.getD []) ∧
      ContextCapsule.from_bytes 7
          ((ContextCapsule.mk emptyCapsuleMeta []).to_bytes.getD [] ++ [255, 0, 7]) =
        .ok (ContextCapsule.mk emptyCapsuleMeta []).canon) :=
  ⟨rfl, rfl,
   (C10_trailing_bytes 7).1 (Tablet.mk emptyTabletMeta []) _ [255, 0, 7] rfl,
   (C10_trailing_bytes 7).2 (ContextCapsule.mk emptyCapsuleMeta []) _ [255, 0, 7] rfl⟩

theorem charListLe_cons (x y : Char) (xs ys : List Char) :
    charListLe (x :: xs) (y :: ys) =
      if x.toNat < y.toNat then true
      else if y.toNat < x.toNat then false
      else charListLe xs ys := rfl

theorem charListLe_total (a : List Char) :
    ∀ b, charListLe a b = true ∨ charListLe b a = true := by
  induction a with
  | nil => intro b; left; rfl
  | cons x xs ih =>
    intro b
    cases b with
    | nil => right; rfl
    | cons y ys =>
      rw [charListLe_cons, charListLe_cons]
      by_cases h1 : x.toNat < y.toNat
      · left; rw [if_pos h1]
      · by_cases h2 : y.toNat < x.toNat
        · right; rw [if_pos h2]
        · simp only [if_neg h1, if_neg h2]
          exact ih ys

theorem charListLe_trans {a : List Char} : ∀ {b c : List Char},
    charListLe a b = true → charListLe b c = true → charListLe a c = true := by
  induction a with
  | nil => intro b c _ _; rfl
  | cons x xs ih =>
    intro b c h1 h2
    cases b with
    | nil => exact Bool.noConfusion h1
    | cons y ys =>
      cases c with
      | nil => exact Bool.noConfusion h2
      | cons z zs =>
        rw [charListLe_cons] at h1 h2 ⊢
        by_cases hxy : x.toNat < y.toNat
        · by_cases hyz : y.toNat < z.toNat
          · rw [if_pos (by omega)]
          · rw [if_neg hyz] at h2
            by_cases hzy : z.toNat < y.toNat
            · rw [if_pos hzy] at h2; exact Bool.noConfusion h2
            · rw [if_pos (by omega)]
        · rw [if_neg hxy] at h1
          by_cases hyx : y.toNat < x.toNat
          · rw [if_pos hyx] at h1; exact Bool.noConfusion h1
          · rw [if_neg hyx] at h1
            by_cases hyz : y.toNat < z.toNat
            · rw [if_pos (by omega)]
            · rw [if_neg hyz] at h2
              by_cases hzy : z.toNat < y.toNat
              · rw [if_pos hzy] at h2; exact Bool.noConfusion h2
              · rw [if_neg hzy] at h2
                rw [if_neg (by omega), if_neg (by omega)]
                exact ih h1 h2

theorem charListLe_antisymm {a : List Char} : ∀ {b : List Char},
    charListLe a b = true → charListLe b a = true → a = b := by
  induction a with
  | nil =>
    intro b h1 h2
    cases b with
    | nil => rfl
    | cons y ys => exact Bool.noConfusion h2
  | cons x xs ih =>
    intro b h1 h2
    cases b with
    | nil => exact Bool.noConfusion h1
    | cons y ys =>
      rw [charListLe_cons] at h1 h2
      by_cases hxy : x.toNat < y.toNat
      · rw [if_neg (by omega), if_pos hxy] at h2
        exact Bool.noConfusion h2
      · by_cases hyx : y.toNat < x.toNat
        · rw [if_neg hxy, if_pos hyx] at h1
          exact Bool.noConfusion h1
        · rw [if_neg hxy, if_neg hyx] at h1
          have hx : x = y := charEq_of_toNat_eq (by omega)
          rw [hx, ih h1 (by rw [if_neg hyx, if_neg hxy] at h2; exact h2)]

theorem keyLe_antisymm {a b : String} (h1 : keyLe a b = true) (h2 : keyLe b a = true) :
    a = b := by
  have h := charListLe_antisymm h1 h2
  cases a with
  | mk d1 =>
    cases b with
    | mk d2 => exact congrArg String.mk h

theorem insertionSort_perm_eq {α : Type} (r : α → α → Prop) [DecidableRel r]
    [IsTotal α r] [IsTrans α r] (key : α → String)
    (hkey : ∀ a b, r a b → r b a → key a = key b)
    {l₁ l₂ : List α} (hp : l₁.Perm l₂) (hn : (l₁.map key).Nodup) :
    List.insertionSort r l₁ = List.insertionSort r l₂ := by
  haveI : IsAntisymm α (fun a b => r a b ∧ key a ≠ key b) :=
    ⟨fun a b h1 h2 => absurd (hkey a b h1.1 h2.1) h1.2⟩
  have hp1 := List.perm_insertionSort r l₁
  have hp2 := List.perm_insertionSort r l₂
  have hn1 : ((List.insertionSort r l₁).map key).Nodup := (hp1.map key).nodup_iff.mpr hn
  have hnl2 : (l₂.map key).Nodup := (hp.map key).nodup_iff.mp hn
  have hn2 : ((List.insertionSort r l₂).map key).Nodup := (hp2.map key).nodup_iff.mpr hnl2
  have hne1 : (List.insertionSort r l₁).Pairwise (fun a b => key a ≠ key b) := by
    rw [List.Nodup, List.pairwise_map] at hn1
    exact hn1
  have hne2 : (List.insertionSort r l₂).Pairwise (fun a b => key a ≠ key b) := by
    rw [List.Nodup, List.pairwise_map] at hn2
    exact hn2
  have hs1 : List.Sorted (fun a b => r a b ∧ key a ≠ key b) (List.insertionSort r l₁) :=
    List.Pairwise.and (List.sorted_insertionSort r l₁) hne1
  have hs2 : List.Sorted (fun a b => r a b ∧ key a ≠ key b) (List.insertionSort r l₂) :=
    List.Pairwise.and (List.sorted_insertionSort r l₂) hne2
  exact List.eq_of_perm_of_sorted (hp1.trans (hp.trans hp2.symm)) hs1 hs2

theorem sortKvs_perm_eq {l₁ l₂ : List (String × Json)} (hp : l₁.Perm l₂)
    (hn : (l₁.map Prod.fst).Nodup) : sortKvs l₁ = sortKvs l₂ := by
  haveI : IsTotal (String × Json) (fun a b => keyLe a.1 b.1 = true) :=
    ⟨fun a b => charListLe_total a.1.data b.1.data⟩
  haveI : IsTrans (String × Json) (fun a b => keyLe a.1 b.1 = true) :=
    ⟨fun a b c h1 h2 => charListLe_trans h1 h2⟩
  exact insertionSort_perm_eq (fun a b => keyLe a.1 b.1 = true) Prod.fst
    (fun a b h1 h2 => keyLe_antisymm h1 h2) hp hn

theorem canonK_toList : (d : JsonKvs) →
    d.canonK.toList = d.toList.map (fun p => (p.1, p.2.canon))
  | .nil => rfl
  | .kcons k v tl => by
      show (k, v.canon) :: tl.canonK.toList =
        (k, v.canon) :: tl.toList.map (fun p => (p.1, p.2.canon))
      rw [canonK_toList tl]

theorem canonExtra_perm {e₁ e₂ : JsonKvs} (hp : e₁.toList.Perm e₂.toList)
    (hn : (e₁.toList.map Prod.fst).Nodup) : canonExtra e₁ = canonExtra e₂ := by
  unfold canonExtra
  congr 1
  apply sortKvs_perm_eq
  · rw [canonK_toList, canonK_toList]
    exact hp.map _
  · rw [canonK_toList, List.map_map]
    have hcomp : (Prod.fst ∘ fun p : String × Json => (p.1, p.2.canon)) = Prod.fst := rfl
    rw [hcomp]
    exact hn

/-- C9: deterministic metadata encoding.  Two metadata records whose fields
are equal — with the free-form `extra` object given as any key reordering
(a permutation of its key/value items, keys distinct) — serialize to the
very same JSON blob, because `json.dumps(..., sort_keys=True)` writes keys
in sorted order. -/
theorem C9_metadata_deterministic :
    (∀ (m₁ m₂ : TabletMetadata),
      m₁.title = m₂.title → m₁.summary = m₂.summary → m₁.author = m₂.author →
      m₁.created_at = m₂.created_at → m₁.tags = m₂.tags → m₁.revision = m₂.revision →
      m₁.extra.toList.Perm m₂.extra.toList → (m₁.extra.toList.map Prod.fst).Nodup →
      Json.dumps m₁.to_dict = Json.dumps m₂.to_dict) ∧
    (∀ (m₁ m₂ : CapsuleMetadata),
      m₁.project = m₂.project → m₁.summary = m₂.summary → m₁.author = m₂.author →
      m₁.created_at = m₂.created_at → m₁.branch = m₂.branch → m₁.revision = m₂.revision →
      m₁.extra.toList.Perm m₂.extra.toList → (m₁.extra.toList.map Prod.fst).Nodup →
      Json.dumps m₁.to_dict = Json.dumps m₂.to_dict) := by
  constructor
  · intro m₁ m₂ ht hs ha hc hg hr hp hn
    have hE : canonExtra m₁.extra = canonExtra m₂.extra := canonExtra_perm hp hn
    show m₁.to_dict.canon.dumpsRaw = m₂.to_dict.canon.dumpsRaw
    rw [canonTabletDict2, canonTabletDict2]
    unfold tabletDictCanon
    rw [ht, hs, ha, hc, hg, hr, hE]
  · intro m₁ m₂ ht hs ha hc hg hr hp hn
    have hE : canonExtra m₁.extra = canonExtra m₂.extra := canonExtra_perm hp hn
    show m₁.to_dict.canon.dumpsRaw = m₂.to_dict.canon.dumpsRaw
    rw [canonCapsuleDict2, canonCapsuleDict2]
    unfold capsuleDictCanon
    rw [ht, hs, ha, hc, hg, hr, hE]

/-- Witness for C9: two records whose `extra` objects hold the same two
keys in opposite orders serialize identically, for both formats. -/
theorem C9_metadata_deterministic_witness :
    Json.dumps (TabletMetadata.mk "t" "" none 0 [] none
        (.kcons "b" (.str "x") (.kcons "a" (.str "y") .nil))).to_dict =
      Json.dumps (TabletMetadata.mk "t" "" none 0 [] none
        (.kcons "a" (.str "y") (.kcons "b" (.str "x") .nil))).to_dict ∧
    Json.dumps (CapsuleMetadata.mk "p" "" none 0 none none
        (.kcons "b" (.str "x") (.kcons "a" (.str "y") .nil))).to_dict =
      Json.dumps (CapsuleMetadata.mk "p" "" none 0 none none
        (.kcons "a" (.str "y") (.kcons "b" (.str "x") .nil))).to_dict :=
  ⟨C9_metadata_deterministic.1
      (TabletMetadata.mk "t" "" none 0 [] none
        (.kcons "b" (.str "x") (.kcons "a" (.str "y") .nil)))
      (TabletMetadata.mk "t" "" none 0 [] none
        (.kcons "a" (.str "y") (.kcons "b" (.str "x") .nil)))
      rfl rfl rfl rfl rfl rfl (List.Perm.swap _ _ _) (by decide),
   C9_metadata_deterministic.2
      (CapsuleMetadata.mk "p" "" none 0 none none
        (.kcons "b" (.str "x") (.kcons "a" (.str "y") .nil)))
      (CapsuleMetadata.mk "p" "" none 0 none none
        (.kcons "a" (.str "y") (.kcons "b" (.str "x") .nil)))
      rfl rfl rfl rfl rfl rfl (List.Perm.swap _ _ _) (by decide)⟩

theorem readKind_bad {b suf : List Nat} {c kv : Nat}
    (hb : b.drop c = kv :: suf) (hkv : kindOfByte kv = none) (hc : c ≤ b.length) :
    readKind b c = .error .UnknownSectionKind := by
  have hlen : c + 1 + suf.length = b.length := by
    have := @length_ge_of_drop b suf c [kv] (by simpa using hb) hc
    simpa using this
  have hget : b.getD c 0 = kv := by
    rw [List.getD_eq_getElem?_getD]
    have h0 : (b.drop c)[0]? = b[c + 0]? := List.getElem?_drop b c 0
    rw [hb] at h0
    simp only [List.getElem?_cons_zero] at h0
    rw [Nat.add_zero] at h0
    rw [← h0]
    rfl
  unfold readKind
  rw [if_pos (by omega), hget, hkv]

theorem decodeSections_bad (good : List CapsuleSection) :
    ∀ (b gb nb suf : List Nat) (c kv cnt : Nat) (name : String),
      encodeSections good = some gb → encodeString name = some nb →
      kindOfByte kv = none → b.drop c = gb ++ (nb ++ (kv :: suf)) → c ≤ b.length →
      decodeSections b c (good.length + cnt + 1) = .error .UnknownSectionKind := by
  induction good with
  | nil =>
    intro b gb nb suf c kv cnt name hgb hnb hkv hb hc
    unfold encodeSections encodeSectionsRaw at hgb
    have hgbe : gb = [] := by cases hgb; rfl
    subst hgbe
    rw [List.nil_append] at hb
    rw [List.length_nil, Nat.zero_add]
    unfold decodeSections
    rw [decodeString_at hnb hb hc, exc_bind_ok]
    have hb2 : b.drop (c + nb.length) = kv :: suf := drop_len_of_drop nb hb
    rw [readKind_bad hb2 hkv (by
      have := length_ge_of_drop hb hc
      simp only [List.length_append, List.length_cons] at this
      omega), exc_bind_err]
  | cons s good ih =>
    intro b gb nb suf c kv cnt name hgb hnb hkv hb hc
    unfold encodeSections at hgb
    rw [List.map_cons] at hgb
    unfold encodeSectionsRaw at hgb
    rcases hnbs : encodeString s.name with _ | nbs
    · rw [hnbs] at hgb; cases hgb
    rw [hnbs, Option.some_bind, if_pos (kind_val_lt s.kind)] at hgb
    by_cases hpl : s.payload.length > 0xFFFFFFFF
    · rw [if_pos hpl] at hgb; cases hgb
    rw [if_neg hpl] at hgb
    rcases hrb : encodeSectionsRaw (good.map fun s => (s.name, s.kind.val, s.payload))
      with _ | rb
    · rw [hrb] at hgb; cases hgb
    rw [hrb] at hgb
    have hgb2 : some (nbs ++ [s.kind.val] ++ packBE 4 s.payload.length ++ s.payload ++ rb) =
        some gb := hgb
    obtain rfl : nbs ++ [s.kind.val] ++ packBE 4 s.payload.length ++ s.payload ++ rb = gb :=
      (Option.some.injEq _ _).mp hgb2
    have hb1 : b.drop c = nbs ++ ([s.kind.val] ++ (packBE 4 s.payload.length ++
        (s.payload ++ (rb ++ (nb ++ (kv :: suf)))))) := by
      rw [hb]; simp [List.append_assoc]
    have hlen := length_ge_of_drop hb1 hc
    simp only [List.length_append, List.length_singleton, packBE_length,
      List.length_cons] at hlen
    rw [List.length_cons]
    rw [show good.length + 1 + cnt + 1 = (good.length + cnt + 1) + 1 from by omega]
    unfold decodeSections
    rw [decodeString_at hnbs hb1 hc, exc_bind_ok]
    have hb2 : b.drop (c + nbs.length) = s.kind.val :: (packBE 4 s.payload.length ++
        (s.payload ++ (rb ++ (nb ++ (kv :: suf))))) := by
      have := drop_len_of_drop nbs hb1
      simpa using this
    rw [readKind_at hb2 (kindOfByte_val s.kind) (by omega), exc_bind_ok]
    have hb2b : b.drop (c + nbs.length) = [s.kind.val] ++ (packBE 4 s.payload.length ++
        (s.payload ++ (rb ++ (nb ++ (kv :: suf))))) := by simpa using hb2
    have hb3 : b.drop (c + nbs.length + 1) = packBE 4 s.payload.length ++
        (s.payload ++ (rb ++ (nb ++ (kv :: suf)))) := by
      have := drop_len_of_drop [s.kind.val] hb2b
      simpa using this
    rw [readPayload_at hb3 (by omega) (by omega), exc_bind_ok]
    have hb4 : b.drop (c + nbs.length + 1 + 4 + s.payload.length) =
        rb ++ (nb ++ (kv :: suf)) := by
      have step1 := drop_len_of_drop (packBE 4 s.payload.length) hb3
      rw [packBE_length] at step1
      exact drop_len_of_drop s.payload step1
    have hrb2 : encodeSections good = some rb := hrb
    rw [ih b rb nb suf _ kv cnt name hrb2 hnb hkv hb4 (by omega), exc_map_err]

/-- C7: unknown section kind.  A Capsule buffer that is well formed up to
the sections region — any number of valid sections followed by one whose
kind byte `kv` is outside the enumeration (`kindOfByte kv = none`, i.e.
`kv = 0` or `kv ≥ 4`) — fails with `UnknownSectionKind`: there is no
forward-compatible passthrough for unknown kinds. -/
theorem C7_unknown_section_kind (now ms kv cnt : Nat) (mC : CapsuleMetadata)
    (metaB : List Nat) (good : List CapsuleSection) (gb : List Nat) (name : String)
    (nb rest : List Nat)
    (hms : ms < 2 ^ 64) (hkv : kindOfByte kv = none)
    (hmeta : encodeString (String.mk (Json.dumps mC.to_dict)) = some metaB)
    (hgood : encodeSections good = some gb) (hnb : encodeString name = some nb)
    (hcnt : good.length + cnt + 1 < 2 ^ 32) :
    ContextCapsule.from_bytes now
      (CAPSULE_MAGIC ++ (packBE 2 FORMAT_VERSION ++ (packBE 8 ms ++ (metaB ++
        (packBE 4 (good.length + cnt + 1) ++ (gb ++ (nb ++ (kv :: rest)))))))) =
      .error .UnknownSectionKind := by
  have hmag8 : CAPSULE_MAGIC.length = 8 := rfl
  set B := CAPSULE_MAGIC ++ (packBE 2 FORMAT_VERSION ++ (packBE 8 ms ++ (metaB ++
    (packBE 4 (good.length + cnt + 1) ++ (gb ++ (nb ++ (kv :: rest))))))) with hBdef
  have hB : B.length = 8 + (2 + (8 + (metaB.length + (4 + (gb.length +
      (nb.length + (rest.length + 1))))))) := by
    rw [hBdef]
    simp [CAPSULE_MAGIC, List.length_append, packBE_length]
    omega
  have hd8 : B.drop 8 = packBE 2 FORMAT_VERSION ++ (packBE 8 ms ++ (metaB ++
      (packBE 4 (good.length + cnt + 1) ++ (gb ++ (nb ++ (kv :: rest)))))) :=
    drop_len_eq hmag8 _
  have hd10 : B.drop 10 = packBE 8 ms ++ (metaB ++
      (packBE 4 (good.length + cnt + 1) ++ (gb ++ (nb ++ (kv :: rest))))) := by
    have := drop_len_of_drop (packBE 2 FORMAT_VERSION) hd8
    rw [packBE_length] at this
    exact this
  have hd18 : B.drop 18 = metaB ++ (packBE 4 (good.length + cnt + 1) ++
      (gb ++ (nb ++ (kv :: rest)))) := by
    have := drop_len_of_drop (packBE 8 ms) hd10
    rw [packBE_length] at this
    exact this
  have hdc : B.drop (18 + metaB.length) = packBE 4 (good.length + cnt + 1) ++
      (gb ++ (nb ++ (kv :: rest))) := drop_len_of_drop metaB hd18
  have hdc4 : B.drop (18 + metaB.length + 4) = gb ++ (nb ++ (kv :: rest)) := by
    have := drop_len_of_drop (packBE 4 (good.length + cnt + 1)) hdc
    rw [packBE_length] at this
    exact this
  have htake : B.take 8 = CAPSULE_MAGIC := take_len_eq hmag8 _
  unfold ContextCapsule.from_bytes
  rw [if_neg (by omega), if_neg (fun hcon => hcon htake)]
  rw [readBEx_at hd8 (by decide) (by omega), exc_bind_ok, if_neg (by simp)]
  rw [readBEx_at hd10 (by rw [pow_256_8]; omega) (by omega), exc_bind_ok]
  rw [decodeString_at hmeta hd18 (by omega), exc_bind_ok]
  have hload : loadsObj (String.mk (Json.dumps mC.to_dict)) =
      .ok (capsuleDictCanon mC) := by
    unfold loadsObj
    have h1 : (String.mk (Json.dumps mC.to_dict)).data = Json.dumps mC.to_dict := rfl
    rw [h1, jsonLoads_dumps, canonCapsuleDict2]
  rw [hload, exc_bind_ok]
  have hfd : fromDictC now (capsuleDictCanon mC) = .ok mC.canonM := by
    unfold fromDictC
    rw [from_dict_capsuleDictCanon]
    rfl
  rw [hfd, exc_bind_ok]
  rw [readBEx_at hdc (by rw [pow_256_4]; omega) (by omega), exc_bind_ok]
  rw [decodeSections_bad good B gb nb rest (18 + metaB.length + 4) kv cnt name
    hgood hnb hkv hdc4 (by omega), exc_map_err]

set_option maxHeartbeats 2000000 in
/-- Witness for C7: a concrete capsule buffer whose single section carries
kind byte 0 fails with `UnknownSectionKind`. -/
theorem C7_unknown_section_kind_witness :
    ContextCapsule.from_bytes 7
      (CAPSULE_MAGIC ++ (packBE 2 FORMAT_VERSION ++ (packBE 8 0 ++
        (((encodeString (String.mk (Json.dumps emptyCapsuleMeta.to_dict))).getD []) ++
          (packBE 4 (List.length ([] : List CapsuleSection) + 0 + 1) ++
            (([] : List Nat) ++ (((encodeString "s").getD []) ++
              ((0 : Nat) :: ([] : List Nat))))))))) =
      .error .UnknownSectionKind :=
  C7_unknown_section_kind 7 0 0 0 emptyCapsuleMeta _ [] [] "s" _ []
    (by decide) rfl rfl rfl rfl (by decide)

theorem readBEx_end {b : List Nat} {c w : Nat} (h : b.length < c + w) :
    readBEx b c w = .error .TruncatedInput := by
  unfold readBEx readBE
  rw [if_neg (by omega)]

theorem readBEx_take_trunc {b : List Nat} {c w k : Nat} (h : k < c + w) :
    readBEx (b.take k) c w = .error .TruncatedInput := by
  unfold readBEx
  rw [readBE_take_none h]

theorem readBEx_take_eq {b : List Nat} {c w k : Nat} (h : c + w ≤ k) :
    readBEx (b.take k) c w = readBEx b c w := by
  unfold readBEx
  rw [readBE_take h]

theorem readKind_end {b : List Nat} {c : Nat} (h : b.length ≤ c) :
    readKind b c = .error .TruncatedInput := by
  unfold readKind
  rw [if_neg (by omega)]

theorem take_drop_at {b mid suf : List Nat} {c k : Nat}
    (hb : b.drop c = mid ++ suf) (hk : c + mid.length ≤ k) :
    (b.take k).drop c = mid ++ suf.take (k - c - mid.length) := by
  rw [List.drop_take, hb, List.take_append_eq_append_take,
    List.take_of_length_le (by omega)]

theorem take_prefix_at {b mid suf : List Nat} {c k : Nat}
    (hb : b.drop c = mid ++ suf) (hk : k - c ≤ mid.length) :
    (b.take k).drop c = mid.take (k - c) := by
  rw [List.drop_take, hb, List.take_append_of_le_length hk]

theorem length_take_eq {b : List Nat} {k : Nat} (h : k ≤ b.length) :
    (b.take k).length = k := by
  rw [List.length_take]
  exact inf_eq_left.mpr h

theorem decodeString_trunc {b mb : List Nat} {c j : Nat} {s : String}
    (henc : encodeString s = some mb) (hb : b.drop c = mb.take j)
    (hlen : b.length = c + j) (hj : j < mb.length) :
    decodeString b c = .error .TruncatedInput := by
  unfold encodeString at henc
  by_cases hg : (utf8Encode s.data).length > 0xFFFFFFFF
  · rw [if_pos hg] at henc; cases henc
  rw [if_neg hg] at henc
  have hmb : packBE 4 (utf8Encode s.data).length ++ utf8Encode s.data = mb :=
    (Option.some.injEq _ _).mp henc
  have hmbl : mb.length = 4 + (utf8Encode s.data).length := by
    rw [← hmb]
    simp [packBE_length]
  unfold decodeString
  by_cases h4 : j < 4
  · rw [readBEx_end (by omega), exc_bind_err]
  · have hbm : b.drop c = packBE 4 (utf8Encode s.data).length ++
        ((utf8Encode s.data).take (j - 4)) := by
      rw [hb, ← hmb, List.take_append_eq_append_take,
        List.take_of_length_le (by rw [packBE_length]; omega), packBE_length]
    rw [readBEx_at hbm (by rw [pow_256_4]; omega) (by omega), exc_bind_ok,
      if_neg (by omega)]

theorem decodeString_take_at {b suf mb : List Nat} {c k : Nat} {s : String}
    (henc : encodeString s = some mb) (hb : b.drop c = mb ++ suf)
    (hk1 : c + mb.length ≤ k) (hk2 : k ≤ b.length) :
    decodeString (b.take k) c = .ok (s, c + mb.length) := by
  have hbk : (b.take k).drop c = mb ++ suf.take (k - c - mb.length) := take_drop_at hb hk1
  exact decodeString_at henc hbk (by rw [length_take_eq hk2]; omega)

theorem encodeString_length {s : String} {mb : List Nat}
    (henc : encodeString s = some mb) : mb.length = 4 + (utf8Encode s.data).length := by
  unfold encodeString at henc
  by_cases hg : (utf8Encode s.data).length > 0xFFFFFFFF
  · rw [if_pos hg] at henc; cases henc
  rw [if_neg hg] at henc
  have hmb := (Option.some.injEq _ _).mp henc
  rw [← hmb]
  simp [packBE_length]

theorem decodeEntries_trunc (es : List TabletEntry) :
    ∀ (b eb : List Nat) (c j : Nat), encodeEntries es = some eb →
      b.drop c = eb.take j → b.length = c + j → j < eb.length →
      decodeEntries b c es.length = .error .TruncatedInput := by
  induction es with
  | nil =>
    intro b eb c j henc hb hlen hj
    unfold encodeEntries at henc
    obtain rfl : ([] : List Nat) = eb := (Option.some.injEq _ _).mp henc
    simp at hj
  | cons e es ih =>
    intro b eb c j henc hb hlen hj
    unfold encodeEntries at henc
    rcases hp : encodeString e.path with _ | p
    · rw [hp] at henc; cases henc
    rw [hp, Option.some_bind] at henc
    rcases hd : encodeString e.diff with _ | d
    · rw [hd] at henc; cases henc
    rw [hd, Option.some_bind] at henc
    rcases hn : encodeString e.notes with _ | n2
    · rw [hn] at henc; cases henc
    rw [hn, Option.some_bind] at henc
    rcases hr : encodeEntries es with _ | r
    · rw [hr] at henc; cases henc
    rw [hr] at henc
    have henc2 : some (p ++ d ++ n2 ++ r) = some eb := henc
    obtain rfl : p ++ d ++ n2 ++ r = eb := (Option.some.injEq _ _).mp henc2
    have hb' : b.drop c = (p ++ (d ++ (n2 ++ r))).take j := by
      rw [hb]; congr 1; simp [List.append_assoc]
    have hjl : j < p.length + d.length + n2.length + r.length := by
      simp only [List.length_append] at hj
      omega
    have hdl := encodeString_length hd
    have hnl := encodeString_length hn
    rw [List.length_cons]
    unfold decodeEntries
    by_cases hA : j < p.length
    · have hb1 : b.drop c = p.take j := by
        rw [hb', List.take_append_of_le_length (by omega)]
      rw [decodeString_trunc hp hb1 hlen (by omega), exc_bind_err]
    · have hb1 : b.drop c = p ++ ((d ++ (n2 ++ r)).take (j - p.length)) := by
        rw [hb', List.take_append_eq_append_take, List.take_of_length_le (by omega)]
      rw [decodeString_at hp hb1 (by omega), exc_bind_ok]
      have hb2 : b.drop (c + p.length) = (d ++ (n2 ++ r)).take (j - p.length) :=
        drop_len_of_drop p hb1
      by_cases hB : j < p.length + d.length
      · have hb3 : b.drop (c + p.length) = d.take (j - p.length) := by
          rw [hb2, List.take_append_of_le_length (by omega)]
        rw [decodeString_trunc hd hb3 (by omega) (by omega), exc_bind_err]
      · have hb2b : b.drop (c + p.length) =
            d ++ ((n2 ++ r).take (j - p.length - d.length)) := by
          rw [hb2, List.take_append_eq_append_take, List.take_of_length_le (by omega)]
        rw [decodeString_at hd hb2b (by omega), exc_bind_ok]
        have hb3 : b.drop (c + p.length + d.length) =
            (n2 ++ r).take (j - p.length - d.length) := drop_len_of_drop d hb2b
        by_cases hC : j < p.length + d.length + n2.length
        · have hb4 : b.drop (c + p.length + d.length) =
              n2.take (j - p.length - d.length) := by
            rw [hb3, List.take_append_of_le_length (by omega)]
          rw [decodeString_trunc hn hb4 (by omega) (by omega), exc_bind_err]
        · have hb3b : b.drop (c + p.length + d.length) =
              n2 ++ (r.take (j - p.length - d.length - n2.length)) := by
            rw [hb3, List.take_append_eq_append_take, List.take_of_length_le (by omega)]
          rw [decodeString_at hn hb3b (by omega), exc_bind_ok]
          have hb4 : b.drop (c + p.length + d.length + n2.length) =
              r.take (j - p.length - d.length - n2.length) := drop_len_of_drop n2 hb3b
          rw [ih b r (c + p.length + d.length + n2.length)
            (j - p.length - d.length - n2.length) hr hb4 (by omega) (by omega),
            exc_map_err]

theorem decodeSections_trunc (ss : List CapsuleSection) :
    ∀ (b eb : List Nat) (c j : Nat), encodeSections ss = some eb →
      b.drop c = eb.take j → b.length = c + j → j < eb.length →
      decodeSections b c ss.length = .error .TruncatedInput := by
  induction ss with
  | nil =>
    intro b eb c j henc hb hlen hj
    unfold encodeSections encodeSectionsRaw at henc
    obtain rfl : ([] : List Nat) = eb := (Option.some.injEq _ _).mp henc
    simp at hj
  | cons s ss ih =>
    intro b eb c j henc hb hlen hj
    unfold encodeSections at henc
    rw [List.map_cons] at henc
    unfold encodeSectionsRaw at henc
    rcases hnbs : encodeString s.name with _ | nbs
    · rw [hnbs] at henc; cases henc
    rw [hnbs, Option.some_bind, if_pos (kind_val_lt s.kind)] at henc
    by_cases hpl : s.payload.length > 0xFFFFFFFF
    · rw [if_pos hpl] at henc; cases henc
    rw [if_neg hpl] at henc
    rcases hrb : encodeSectionsRaw (ss.map fun s => (s.name, s.kind.val, s.payload))
      with _ | rb
    · rw [hrb] at henc; cases henc
    rw [hrb] at henc
    have henc2 : some (nbs ++ [s.kind.val] ++ packBE 4 s.payload.length ++ s.payload ++ rb) =
        some eb := henc
    obtain rfl : nbs ++ [s.kind.val] ++ packBE 4 s.payload.length ++ s.payload ++ rb = eb :=
      (Option.some.injEq _ _).mp henc2
    have hrb2 : encodeSections ss = some rb := hrb
    have hb' : b.drop c = (nbs ++ (s.kind.val :: (packBE 4 s.payload.length ++
        (s.payload ++ rb)))).take j := by
      rw [hb]; congr 1; simp [List.append_assoc]
    have hjl : j < nbs.length + 1 + 4 + s.payload.length + rb.length := by
      simp only [List.length_append, List.length_singleton, packBE_length] at hj
      omega
    rw [List.length_cons]
    unfold decodeSections
    by_cases hA : j < nbs.length
    · have hb1 : b.drop c = nbs.take j := by
        rw [hb', List.take_append_of_le_length (by omega)]
      rw [decodeString_trunc hnbs hb1 hlen (by omega), exc_bind_err]
    · have hb1 : b.drop c = nbs ++ ((s.kind.val :: (packBE 4 s.payload.length ++
          (s.payload ++ rb))).take (j - nbs.length)) := by
        rw [hb', List.take_append_eq_append_take, List.take_of_length_le (by omega)]
      rw [decodeString_at hnbs hb1 (by omega), exc_bind_ok]
      have hb2 : b.drop (c + nbs.length) = (s.kind.val :: (packBE 4 s.payload.length ++
          (s.payload ++ rb))).take (j - nbs.length) := drop_len_of_drop nbs hb1
      by_cases hB : j = nbs.length
      · rw [readKind_end (by omega), exc_bind_err]
      · have hb2b : b.drop (c + nbs.length) = s.kind.val :: ((packBE 4 s.payload.length ++
            (s.payload ++ rb)).take (j - nbs.length - 1)) := by
          rw [hb2, show j - nbs.length = (j - nbs.length - 1) + 1 from by omega,
            List.take_succ_cons]
          simp only [Nat.add_sub_cancel]
        rw [readKind_at hb2b (kindOfByte_val s.kind) (by omega), exc_bind_ok]
        have hb2c : b.drop (c + nbs.length) = [s.kind.val] ++
            ((packBE 4 s.payload.length ++ (s.payload ++ rb)).take (j - nbs.length - 1)) :=
          hb2b
        have hb3 : b.drop (c + nbs.length + 1) = (packBE 4 s.payload.length ++
            (s.payload ++ rb)).take (j - nbs.length - 1) := by
          have h0 := drop_len_of_drop [s.kind.val] hb2c
          simpa using h0
        by_cases hC : j < nbs.length + 5
        · unfold readPayload
          rw [readBEx_end (by omega), exc_bind_err, exc_bind_err]
        · have hb3b : b.drop (c + nbs.length + 1) = packBE 4 s.payload.length ++
              ((s.payload ++ rb).take (j - nbs.length - 1 - 4)) := by
            rw [hb3, List.take_append_eq_append_take,
              List.take_of_length_le (by rw [packBE_length]; omega), packBE_length]
          by_cases hD : j < nbs.length + 5 + s.payload.length
          · unfold readPayload
            rw [readBEx_at hb3b (by rw [pow_256_4]; omega) (by omega), exc_bind_ok,
              if_neg (by omega), exc_bind_err]
          · have hb3c : b.drop (c + nbs.length + 1) = packBE 4 s.payload.length ++
                (s.payload ++ (rb.take (j - nbs.length - 5 - s.payload.length))) := by
              rw [hb3b, List.take_append_eq_append_take,
                List.take_of_length_le (by omega)]
              have hix : j - nbs.length - 1 - 4 - s.payload.length =
                  j - nbs.length - 5 - s.payload.length := by omega
              rw [hix]
            rw [readPayload_at hb3c (by omega) (by omega), exc_bind_ok]
            have hb4a : b.drop (c + nbs.length + 1 + 4) =
                s.payload ++ (rb.take (j - nbs.length - 5 - s.payload.length)) := by
              have h0 := drop_len_of_drop (packBE 4 s.payload.length) hb3c
              rw [packBE_length] at h0
              exact h0
            have hb4 : b.drop (c + nbs.length + 1 + 4 + s.payload.length) =
                rb.take (j - nbs.length - 5 - s.payload.length) :=
              drop_len_of_drop s.payload hb4a
            rw [ih b rb (c + nbs.length + 1 + 4 + s.payload.length)
              (j - nbs.length - 5 - s.payload.length) hrb2 hb4 (by omega) (by omega),
              exc_map_err]

/-- C4: truncation safety.  Cutting any valid encoding anywhere short of its
end makes decode fail with `TruncatedInput` — for both formats, at every cut
point: inside the header, the metadata blob, the count field, or the
entry/section blocks. -/
theorem C4_truncation (now : Nat) :
    (∀ (T : Tablet) (B : List Nat) (k : Nat), T.to_bytes = some B → k < B.length →
      Tablet.from_bytes now (B.take k) = .error .TruncatedInput) ∧
    (∀ (C : ContextCapsule) (B : List Nat) (k : Nat), C.to_bytes = some B → k < B.length →
      ContextCapsule.from_bytes now (B.take k) = .error .TruncatedInput) := by
  constructor
  · intro T B k hB hk
    have hmag8 : TABLET_MAGIC.length = 8 := rfl
    obtain ⟨metaB, entB, hms, hmeta, hcnt, hent, hshape⟩ := tablet_to_bytes_inv T B hB
    have hBeq : B = TABLET_MAGIC ++ (packBE 2 FORMAT_VERSION ++
        (packBE 8 T.metadata.created_at ++ (metaB ++
          (packBE 4 T.entries.length ++ entB)))) := by
      have h0 := hshape []
      simp only [List.append_nil] at h0
      exact h0
    have hBlen : B.length = 18 + metaB.length + (4 + entB.length) := by
      rw [hBeq]
      simp only [List.length_append, packBE_length, hmag8]
      omega
    have hd8 : B.drop 8 = packBE 2 FORMAT_VERSION ++
        (packBE 8 T.metadata.created_at ++ (metaB ++
          (packBE 4 T.entries.length ++ entB))) := by
      rw [hBeq]; exact drop_len_eq hmag8 _
    have hd10 : B.drop 10 = packBE 8 T.metadata.created_at ++
        (metaB ++ (packBE 4 T.entries.length ++ entB)) := by
      have h0 := drop_len_of_drop (packBE 2 FORMAT_VERSION) hd8
      rw [packBE_length] at h0; exact h0
    have hd18 : B.drop 18 = metaB ++ (packBE 4 T.entries.length ++ entB) := by
      have h0 := drop_len_of_drop (packBE 8 T.metadata.created_at) hd10
      rw [packBE_length] at h0; exact h0
    have hdc : B.drop (18 + metaB.length) = packBE 4 T.entries.length ++ entB :=
      drop_len_of_drop metaB hd18
    have hdc4 : B.drop (18 + metaB.length + 4) = entB ++ [] := by
      have h0 := drop_len_of_drop (packBE 4 T.entries.length) hdc
      rw [packBE_length] at h0
      rw [h0, List.append_nil]
    unfold Tablet.from_bytes
    by_cases h8 : k < 8
    · rw [if_pos (by rw [List.length_take]; exact lt_of_le_of_lt inf_le_left h8)]
    · have hkB : k ≤ B.length := le_of_lt hk
      have hltk : (B.take k).length = k := length_take_eq hkB
      have htakek : (B.take k).take 8 = TABLET_MAGIC := by
        rw [List.take_take, inf_eq_left.mpr (by omega), hBeq]
        exact take_len_eq hmag8 _
      rw [if_neg (by rw [hltk]; omega), if_neg (fun hcon => hcon htakek)]
      by_cases h10 : k < 10
      · rw [readBEx_take_trunc (by omega), exc_bind_err]
      · rw [readBEx_take_eq (by omega : 8 + 2 ≤ k), readBEx_at hd8 (by decide) (by omega),
          exc_bind_ok, if_neg (by simp)]
        by_cases h18 : k < 18
        · rw [readBEx_take_trunc (by omega), exc_bind_err]
        · rw [readBEx_take_eq (by omega : 10 + 8 ≤ k),
            readBEx_at hd10 (by rw [pow_256_8]; omega) (by omega), exc_bind_ok]
          by_cases hmb : k < 18 + metaB.length
          · have hb1 : (B.take k).drop 18 = metaB.take (k - 18) :=
              take_prefix_at hd18 (by omega)
            rw [decodeString_trunc hmeta hb1 (by rw [hltk]; omega) (by omega), exc_bind_err]
          · rw [decodeString_take_at hmeta hd18 (by omega) hkB, exc_bind_ok]
            have hload : loadsObj (String.mk (Json.dumps T.metadata.to_dict)) =
                .ok (tabletDictCanon T.metadata) := by
              unfold loadsObj
              have h1 : (String.mk (Json.dumps T.metadata.to_dict)).data =
                  Json.dumps T.metadata.to_dict := rfl
              rw [h1, jsonLoads_dumps, canonTabletDict2]
            rw [hload, exc_bind_ok]
            have hfd : fromDictT now (tabletDictCanon T.metadata) =
                .ok T.metadata.canonM := by
              unfold fromDictT
              rw [from_dict_tabletDictCanon]
              rfl
            rw [hfd, exc_bind_ok]
            by_cases hc4 : k < 18 + metaB.length + 4
            · rw [readBEx_take_trunc (by omega), exc_bind_err]
            · rw [readBEx_take_eq (by omega : 18 + metaB.length + 4 ≤ k),
                readBEx_at hdc (by rw [pow_256_4]; omega) (by omega), exc_bind_ok]
              have hb1 : (B.take k).drop (18 + metaB.length + 4) =
                  entB.take (k - (18 + metaB.length + 4)) :=
                take_prefix_at hdc4 (by simp only [List.append_nil] at hdc4 ⊢; omega)
              rw [decodeEntries_trunc T.entries (B.take k) entB (18 + metaB.length + 4)
                (k - (18 + metaB.length + 4)) hent hb1 (by rw [hltk]; omega)
                (by omega), exc_map_err]
  · intro C B k hB hk
    have hmag8 : CAPSULE_MAGIC.length = 8 := rfl
    obtain ⟨metaB, secB, hms, hmeta, hcnt, hsec, hshape⟩ := capsule_to_bytes_inv C B hB
    have hBeq : B = CAPSULE_MAGIC ++ (packBE 2 FORMAT_VERSION ++
        (packBE 8 C.metadata.created_at ++ (metaB ++
          (packBE 4 C.sections.length ++ secB)))) := by
      have h0 := hshape []
      simp only [List.append_nil] at h0
      exact h0
    have hBlen : B.length = 18 + metaB.length + (4 + secB.length) := by
      rw [hBeq]
      simp only [List.length_append, packBE_length, hmag8]
      omega
    have hd8 : B.drop 8 = packBE 2 FORMAT_VERSION ++
        (packBE 8 C.metadata.created_at ++ (metaB ++
          (packBE 4 C.sections.length ++ secB))) := by
      rw [hBeq]; exact drop_len_eq hmag8 _
    have hd10 : B.drop 10 = packBE 8 C.metadata.created_at ++
        (metaB ++ (packBE 4 C.sections.length ++ secB)) := by
      have h0 := drop_len_of_drop (packBE 2 FORMAT_VERSION) hd8
      rw [packBE_length] at h0; exact h0
    have hd18 : B.drop 18 = metaB ++ (packBE 4 C.sections.length ++ secB) := by
      have h0 := drop_len_of_drop (packBE 8 C.metadata.created_at) hd10
      rw [packBE_length] at h0; exact h0
    have hdc : B.drop (18 + metaB.length) = packBE 4 C.sections.length ++ secB :=
      drop_len_of_drop metaB hd18
    have hdc4 : B.drop (18 + metaB.length + 4) = secB ++ [] := by
      have h0 := drop_len_of_drop (packBE 4 C.sections.length) hdc
      rw [packBE_length] at h0
      rw [h0, List.append_nil]
    unfold ContextCapsule.from_bytes
    by_cases h8 : k < 8
    · rw [if_pos (by rw [List.length_take]; exact lt_of_le_of_lt inf_le_left h8)]
    · have hkB : k ≤ B.length := le_of_lt hk
      have hltk : (B.take k).length = k := length_take_eq hkB
      have htakek : (B.take k).take 8 = CAPSULE_MAGIC := by
        rw [List.take_take, inf_eq_left.mpr (by omega), hBeq]
        exact take_len_eq hmag8 _
      rw [if_neg (by rw [hltk]; omega), if_neg (fun hcon => hcon htakek)]
      by_cases h10 : k < 10
      · rw [readBEx_take_trunc (by omega), exc_bind_err]
      · rw [readBEx_take_eq (by omega : 8 + 2 ≤ k), readBEx_at hd8 (by decide) (by omega),
          exc_bind_ok, if_neg (by simp)]
        by_cases h18 : k < 18
        · rw [readBEx_take_trunc (by omega), exc_bind_err]
        · rw [readBEx_take_eq (by omega : 10 + 8 ≤ k),
            readBEx_at hd10 (by rw [pow_256_8]; omega) (by omega), exc_bind_ok]
          by_cases hmb : k < 18 + metaB.length
          · have hb1 : (B.take k).drop 18 = metaB.take (k - 18) :=
              take_prefix_at hd18 (by omega)
            rw [decodeString_trunc hmeta hb1 (by rw [hltk]; omega) (by omega), exc_bind_err]
          · rw [decodeString_take_at hmeta hd18 (by omega) hkB, exc_bind_ok]
            have hload : loadsObj (String.mk (Json.dumps C.metadata.to_dict)) =
                .ok (capsuleDictCanon C.metadata) := by
              unfold loadsObj
              have h1 : (String.mk (Json.dumps C.metadata.to_dict)).data =
                  Json.dumps C.metadata.to_dict := rfl
              rw [h1, jsonLoads_dumps, canonCapsuleDict2]
            rw [hload, exc_bind_ok]
            have hfd : fromDictC now (capsuleDictCanon C.metadata) =
                .ok C.metadata.canonM := by
              unfold fromDictC
              rw [from_dict_capsuleDictCanon]
              rfl
            rw [hfd, exc_bind_ok]
            by_cases hc4 : k < 18 + metaB.length + 4
            · rw [readBEx_take_trunc (by omega), exc_bind_err]
            · rw [readBEx_take_eq (by omega : 18 + metaB.length + 4 ≤ k),
                readBEx_at hdc (by rw [pow_256_4]; omega) (by omega), exc_bind_ok]
              have hb1 : (B.take k).drop (18 + metaB.length + 4) =
                  secB.take (k - (18 + metaB.length + 4)) :=
                take_prefix_at hdc4 (by simp only [List.append_nil] at hdc4 ⊢; omega)
              rw [decodeSections_trunc C.sections (B.take k) secB (18 + metaB.length + 4)
                (k - (18 + metaB.length + 4)) hsec hb1 (by rw [hltk]; omega)
                (by omega), exc_map_err]

set_option maxRecDepth 10000 in
/-- Witness for C4: the 5-byte prefixes of concrete encodings fail with
`TruncatedInput` for both formats. -/
theorem C4_truncation_witness :
    (Tablet.mk emptyTabletMeta []).to_bytes =
      some ((Tablet.mk emptyTabletMeta []).to_bytes.getD []) ∧
    (5 < ((Tablet.mk emptyTabletMeta []).to_bytes.getD []).length ∧
      Tablet.from_bytes 7 (((Tablet.mk emptyTabletMeta []).to_bytes.getD []).take 5) =
        .error .TruncatedInput) ∧
    (ContextCapsule.mk emptyCapsuleMeta []).to_bytes =
      some ((ContextCapsule.mk emptyCapsuleMeta []).to_bytes.getD []) ∧
    (5 < ((ContextCapsule.mk emptyCapsuleMeta []).to_bytes.getD []).length ∧
      ContextCapsule.from_bytes 7
          (((ContextCapsule.mk emptyCapsuleMeta []).to_bytes.getD []).take 5) =
        .error .TruncatedInput) :=
  ⟨rfl,
   ⟨by decide, (C4_truncation 7).1 (Tablet.mk emptyTabletMeta []) _ 5 rfl (by decide)⟩,
   rfl,
   ⟨by decide, (C4_truncation 7).2 (ContextCapsule.mk emptyCapsuleMeta []) _ 5 rfl
     (by decide)⟩⟩
